import Mathlib

/-!
Verification of the pinyin tokenizer core of this repository
(be/src/olap/rowset/segment_v2/inverted_index/tokenizer/pinyin).

Shallow embedding conventions:
* UChar32 codepoints are represented as Nat (decoded codepoints are
  nonnegative; invalid sequences are substituted by U+FFFD before use).
* C++ std::string values are represented as List Nat.  For the phrase
  matcher (smart_get_word.cpp) strings only ever hold UTF-8 encodings of
  codepoint sequences and are compared for equality, so they are
  represented by the corresponding codepoint lists (UTF-8 encoding is
  injective, and a UTF-8 encoding is empty exactly when the codepoint
  list is empty).  For the tone formatter (pinyin_formatter.cpp) and the
  candidate bookkeeping (pinyin_tokenizer.cpp), which index and slice
  strings byte-wise, strings are represented as byte lists.
* Loops are embedded either as structural recursion or with an explicit
  fuel argument whose sufficiency is proved separately; fuel values
  mirror the loop bounds of the source.
-/

/-- ASCII bytes of a Lean string literal; used to write byte lists and
codepoint lists of ASCII data readably. -/
def ascii (s : String) : List Nat := s.data.map Char.toNat

/-! ## SmartForest (smart_forest.cpp / smart_forest.h)

The C++ trie stores children in a sorted array (switching to a direct
array at high occupancy) and keeps per-node a codepoint, a status byte
(1 = CONTINUE, 2 = WORD_CONTINUE, 3 = WORD_END) and a payload
(vector of strings).  The array layouts are lookup optimizations of a
codepoint-keyed child map; the embedding keeps the children as a list
sorted by codepoint with at most one child per codepoint, which realizes
exactly the same getBranch / add semantics. -/

/-- Trie node: codepoint, status, payload, children (sorted by codepoint). -/
inductive SForest : Type where
  | mk (c : Nat) (status : Nat) (param : List (List Nat)) (children : List SForest)
deriving Repr

/-- Codepoint of a node. -/
def SForest.c : SForest → Nat
  | .mk c _ _ _ => c

/-- Status of a node (1 CONTINUE, 2 WORD_CONTINUE, 3 WORD_END). -/
def SForest.status : SForest → Nat
  | .mk _ s _ _ => s

/-- Payload of a node (the readings attached to a complete phrase). -/
def SForest.param : SForest → List (List Nat)
  | .mk _ _ p _ => p

/-- Children of a node. -/
def SForest.children : SForest → List SForest
  | .mk _ _ _ cs => cs

/-- Child lookup inside a children list (SmartForest::getIndex followed by
the branches access: find the unique child carrying the codepoint). -/
def findChild : List SForest → Nat → Option SForest
  | [], _ => none
  | ch :: rest, cp => if ch.c = cp then some ch else findChild rest cp

/-- SmartForest::getBranch(UChar32): child of the node for a codepoint. -/
def SForest.getBranch (t : SForest) (cp : Nat) : Option SForest :=
  findChild t.children cp

/-- One step of SmartForest::add(branch): insert a fresh node for
codepoint `cp` with the given status and payload, or merge the status
into an existing child following the switch in smart_forest.cpp:
an intermediate insertion (status 1) downgrades WORD_END to
WORD_CONTINUE; a terminal insertion (status 3) sets WORD_CONTINUE unless
the node already is WORD_END, and always overwrites the payload. -/
def mergeChild : List SForest → Nat → Nat → List (List Nat) → List SForest
  | [], cp, st, pl => [SForest.mk cp st pl []]
  | ch :: rest, cp, st, pl =>
    if ch.c = cp then
      (if st = 1 then
        (if ch.status = 3 then SForest.mk ch.c 2 ch.param ch.children else ch)
      else if st = 3 then
        SForest.mk ch.c (if ch.status = 3 then 3 else 2) pl ch.children
      else ch) :: rest
    else if ch.c < cp then ch :: mergeChild rest cp st pl
    else SForest.mk cp st pl [] :: ch :: rest

/-- Replace the child carrying codepoint `cp` by its image under `f`. -/
def modifyChild (cs : List SForest) (cp : Nat) (f : SForest → SForest) : List SForest :=
  cs.map fun ch => if ch.c = cp then f ch else ch

/-- SmartForest::add(keyWord, t): walk the phrase codepoint by codepoint,
inserting intermediate codepoints with status 1 and the final codepoint
with status 3 and the payload, merging statuses at existing nodes. -/
def SForest.addWord : SForest → List Nat → List (List Nat) → SForest
  | t, [], _ => t
  | .mk c0 s0 p0 cs, [cp], pl => .mk c0 s0 p0 (mergeChild cs cp 3 pl)
  | .mk c0 s0 p0 cs, cp :: cp2 :: rest, pl =>
    .mk c0 s0 p0 (modifyChild (mergeChild cs cp 1 []) cp
      (fun ch => ch.addWord (cp2 :: rest) pl))

/-- The default-constructed forest root (SmartForest(): c = 0, status 1,
empty payload, no branches). -/
def emptyForest : SForest := .mk 0 1 [] []

/-- Boolean check that every node with status WORD_END (3) is a leaf.
Tries built only through SmartForest::add(keyWord, t) have this shape:
adding a longer phrase through a WORD_END node downgrades it to
WORD_CONTINUE. -/
def wf3b : SForest → Bool
  | .mk _ s _ cs => (decide (s ≠ 3) || cs.isEmpty) && cs.attach.all (fun ch => wf3b ch.1)
decreasing_by
  have := List.sizeOf_lt_of_mem ch.2
  simp only [SForest.mk.sizeOf_spec]
  omega

/-- Fuel-bounded variant of the leaf check, structurally recursive on the
fuel so that the kernel can evaluate it on concrete tries. -/
def wf3bF : Nat → SForest → Bool
  | 0, _ => false
  | d + 1, .mk _ s _ cs => (decide (s ≠ 3) || cs.isEmpty) && cs.all (fun ch => wf3bF d ch)

/-! ## SmartGetWord (smart_get_word.cpp)

State of the scanner.  Field names follow the C++ members: `root_` is the
current scan root, `i_` the scan cursor, `branch_` the current trie
cursor, `isBack_` / `tempOffe_` the deferred WORD_CONTINUE match,
`offe` the rune offset of the last returned match and `param_` its
payload. -/
structure GWState where
  forest : SForest
  branch : SForest
  chars : List Nat
  root : Nat
  i : Nat
  isBack : Bool
  tempOffe : Nat
  offe : Nat
  param : List (List Nat)

/-- The NULL_RESULT sentinel "\x01NULL\x01" as a codepoint list. -/
def nullResult : List Nat := [1, 78, 85, 76, 76, 1]

/-- unicode_to_utf8(chars, start, length) viewed at codepoint level: the
sub-sequence of `length` codepoints starting at `start`, clipped to the
end of the list (the C++ guards start >= size and length <= 0 both
yield the empty string, which drop/take already give). -/
def subList (l : List Nat) (start len : Nat) : List Nat :=
  (l.drop start).take len

/-- Scanner state right after the SmartGetWord constructor: both cursors
at 0, trie cursor at the root, no deferred match. -/
def initState (f : SForest) (cs : List Nat) : GWState :=
  { forest := f, branch := f, chars := cs, root := 0, i := 0,
    isBack := false, tempOffe := 0, offe := 0, param := [] }

/-- SmartGetWord::frontWords with explicit fuel; one fuel unit per
iteration of the for-loop.  Returns the matched word (or the NULL_RESULT
sentinel) together with the updated state, or `none` when the fuel runs
out (a sufficient fuel bound is proved below). -/
def frontWordsF : Nat → GWState → Option (List Nat × GWState)
  | 0, _ => none
  | fuel + 1, s =>
    let L := s.chars.length
    if s.i < L + 1 then
      match (if s.i = L then none else s.branch.getBranch (s.chars.getD s.i 0)) with
      | none =>
        if s.isBack then
          let str := subList s.chars s.root s.tempOffe
          if str.length = 0 then
            some (str, { s with branch := s.forest, offe := s.root, isBack := false,
                                root := s.root + 1, i := s.root + 1 })
          else
            some (str, { s with branch := s.forest, offe := s.root, isBack := false,
                                i := s.root + s.tempOffe, root := s.root + s.tempOffe })
        else
          if s.root + 1 ≥ L then
            some (nullResult, { s with branch := s.forest, i := s.root, root := s.root + 1 })
          else
            frontWordsF fuel { s with branch := s.forest, i := s.root + 1, root := s.root + 1 }
      | some node =>
        if node.status = 2 then
          frontWordsF fuel { s with branch := node, isBack := true,
                                    tempOffe := s.i - s.root + 1, param := node.param,
                                    i := s.i + 1 }
        else if node.status = 3 then
          let str := subList s.chars s.root (s.i - s.root + 1)
          if str.length > 0 then
            some (str, { s with offe := s.root, param := node.param, branch := s.forest,
                                isBack := false, i := s.i + 1, root := s.i + 1 })
          else
            some (str, { s with offe := s.root, param := node.param, branch := s.forest,
                                isBack := false, i := s.root + 1 })
        else frontWordsF fuel { s with branch := node, i := s.i + 1 }
    else
      some (nullResult, { s with tempOffe := s.tempOffe + L })

/-- Fuel that always suffices for frontWordsF (proved below): the scan
root only moves forward and the cursor is bounded by the input length,
so the loop runs at most quadratically many iterations. -/
def frontFuel (s : GWState) : Nat := (s.chars.length + 2) * (s.chars.length + 3)

/-- SmartGetWord::frontWords as a total function. -/
def frontWords (s : GWState) : List Nat × GWState :=
  (frontWordsF (frontFuel s) s).getD (nullResult, s)

/-- SmartGetWord::isE: treated as an English letter iff between the
codepoints of "A" and "z". -/
def isE (c : Nat) : Bool := decide (65 ≤ c ∧ c ≤ 122)

/-- SmartGetWord::isNum: decimal digit. -/
def isNum (c : Nat) : Bool := decide (48 ≤ c ∧ c ≤ 57)

/-- SmartGetWord::checkSame: both English letters or both digits. -/
def checkSame (l c : Nat) : Bool := (isE l && isE c) || (isNum l && isNum c)

/-- SmartGetWord::checkNumberOrEnglish: reject a candidate word (returning
the empty string) when its first codepoint is ASCII and forms a
same-class pair with the rune right before the match, or its last
codepoint is ASCII and forms a same-class pair with the rune right after
the match; otherwise return the word unchanged. -/
def checkNumberOrEnglish (chars : List Nat) (offe : Nat) (temp : List Nat) : List Nat :=
  match temp with
  | [] => []
  | l :: rest =>
    if l :: rest = nullResult then l :: rest
    else if l < 127 ∧ 0 < offe ∧ checkSame l (chars.getD (offe - 1) 0) then []
    else
      let r := rest.getLastD l
      if r < 127 ∧ offe + (l :: rest).length < chars.length ∧
          checkSame r (chars.getD (offe + (l :: rest).length) 0) then []
      else l :: rest

/-- The do-while loop body of SmartGetWord::getFrontWords, with the loop
counter counting down from 1000: when the counter is exhausted (the
1001st iteration in the C++ code) the scanner gives up and returns
NULL_RESULT. -/
def getFrontWordsAux : Nat → GWState → List Nat × GWState
  | 0, s => (nullResult, s)
  | n + 1, s =>
    match frontWords s with
    | (t, s1) =>
      if t = nullResult then (nullResult, s1)
      else
        let t2 := checkNumberOrEnglish s1.chars s1.offe t
        if t2 = [] then getFrontWordsAux n s1
        else (t2, s1)

/-- SmartGetWord::getFrontWords: repeatedly pull candidate matches and
apply the boundary check, giving up after 1000 iterations. -/
def getFrontWords (s : GWState) : List Nat × GWState :=
  getFrontWordsAux 1000 s

/-! ## Semantic notions for the matcher -/

/-- Walk the trie along a codepoint sequence. -/
def walk : SForest → List Nat → Option SForest
  | t, [] => some t
  | t, cp :: rest =>
    match t.getBranch cp with
    | none => none
    | some ch => walk ch rest

/-- A codepoint sequence is a complete dictionary phrase of the trie:
its walk ends at a node with status WORD_CONTINUE or WORD_END. -/
def completeW (f : SForest) (p : List Nat) : Prop :=
  ∃ n, walk f p = some n ∧ (n.status = 2 ∨ n.status = 3)

/-- A phrase match of the dictionary at rune offset `r` of the input:
a nonempty phrase that occurs verbatim at `r` and is complete in the
trie. -/
def matchesAt (f : SForest) (chars : List Nat) (r : Nat) (p : List Nat) : Prop :=
  p ≠ [] ∧ p = subList chars r p.length ∧ completeW f p

/-- Every WORD_END node is a leaf (holds for every trie built through
SmartForest::add(keyWord, t); checked for concrete tries via wf3b). -/
inductive Wf3 : SForest → Prop where
  | intro (c st pl cs) : (st = 3 → cs = []) → (∀ ch ∈ cs, Wf3 ch) →
      Wf3 (SForest.mk c st pl cs)

/-- Invariant of the frontWords scan: the cursor is ahead of the root and
inside the input, the trie cursor is the walk of the scanned segment,
and the deferred-match bookkeeping is exact: when isBack is set,
tempOffe is the length of the longest complete phrase found so far at
the root (and no longer scanned prefix is complete); otherwise no
scanned prefix is complete. -/
def ScanInv (s : GWState) : Prop :=
  s.root ≤ s.i ∧ s.i ≤ s.chars.length ∧
  walk s.forest (subList s.chars s.root (s.i - s.root)) = some s.branch ∧
  (if s.isBack then
    1 ≤ s.tempOffe ∧ s.tempOffe ≤ s.i - s.root ∧
    completeW s.forest (subList s.chars s.root s.tempOffe) ∧
    ∀ d, s.tempOffe < d → d ≤ s.i - s.root →
      ¬ completeW s.forest (subList s.chars s.root d)
  else
    ∀ d, 1 ≤ d → d ≤ s.i - s.root → ¬ completeW s.forest (subList s.chars s.root d))

/-- The word `w` is the longest dictionary phrase of `f` beginning at
rune offset `r` of `chars`. -/
def LongestMatchAt (f : SForest) (chars : List Nat) (r : Nat) (w : List Nat) : Prop :=
  w ≠ [] ∧ w = subList chars r w.length ∧ completeW f w ∧
  ∀ p, matchesAt f chars r p → p.length ≤ w.length

/-- Termination measure of the frontWords loop: decreases on every
iteration (restarts increase the root, other steps increase the
cursor). -/
def scanMeasure (s : GWState) : Nat :=
  (s.chars.length + 1 - s.root) * (s.chars.length + 2) + (s.chars.length + 1 - s.i)

/-! ## Concrete instances for the matcher claims -/

/-- Trie with the phrases of the longest-match example: 中, 中国, 中国人. -/
def trieC1 : SForest :=
  ((emptyForest.addWord (ascii "中") [ascii "zhong4"]).addWord
      (ascii "中国") [ascii "zhong1", ascii "guo2"]).addWord
    (ascii "中国人") [ascii "zhong1", ascii "guo2", ascii "ren2"]

/-- Trie with the single-codepoint phrases 1 and 中. -/
def trieC5 : SForest :=
  (emptyForest.addWord (ascii "1") [ascii "yi1"]).addWord (ascii "中") [ascii "zhong1"]

/-- Input of the iteration-cap counterexample: 1002 copies of the digit 1
followed by 中 (1003 runes). -/
def strC5 : List Nat := List.replicate 1002 49 ++ [20013]

/-- Scanner states reached while scanning strC5 against trieC5: both
cursors at `k`, fresh trie cursor, no deferred match; `o` and `pm` are
the left-over offe / param fields of the previous iteration. -/
def c5state (k o : Nat) (pm : List (List Nat)) : GWState :=
  { forest := trieC5, branch := trieC5, chars := strC5, root := k, i := k,
    isBack := false, tempOffe := 0, offe := o, param := pm }

/-! ## Rune decoding (PinyinTokenizer::decode_to_runes, pinyin_tokenizer.cpp)

The decoder walks the UTF-8 byte buffer with ICU U8_NEXT, recording for
each decoded unit its byte range, and substitutes U+FFFD for every
ill-formed sequence instead of dropping it.  u8Step below embeds
U8_NEXT: it returns the decoded codepoint (already FFFD-substituted, as
the caller does) and the number of bytes consumed; on an ill-formed
sequence it consumes the maximal subpart (the lead byte together with
the well-formed continuation bytes seen so far), and always at least
one byte. -/

/-- A UTF-8 continuation byte. -/
def isTrail (b : Nat) : Bool := decide (128 ≤ b ∧ b ≤ 191)

/-- Admissible first continuation byte of a three-byte sequence
(excluding overlong encodings and surrogates, as U8_NEXT does). -/
def validT1of3 (b0 b1 : Nat) : Bool :=
  if b0 = 0xE0 then decide (0xA0 ≤ b1 ∧ b1 ≤ 0xBF)
  else if b0 = 0xED then decide (0x80 ≤ b1 ∧ b1 ≤ 0x9F)
  else isTrail b1

/-- Admissible first continuation byte of a four-byte sequence
(excluding overlong encodings and values beyond U+10FFFF). -/
def validT1of4 (b0 b1 : Nat) : Bool :=
  if b0 = 0xF0 then decide (0x90 ≤ b1 ∧ b1 ≤ 0xBF)
  else if b0 = 0xF4 then decide (0x80 ≤ b1 ∧ b1 ≤ 0x8F)
  else isTrail b1

/-- One U8_NEXT step over the remaining bytes: the decoded codepoint
(none for an ill-formed sequence, as the negative result of U8_NEXT)
and the number of bytes consumed (at least one, at most four, never
more than the bytes available; an ill-formed sequence consumes its
maximal well-formed subpart). -/
def u8StepRaw : List Nat → Option Nat × Nat
  | [] => (none, 1)
  | b0 :: rest =>
    if b0 < 0x80 then (some b0, 1)
    else if 0xC2 ≤ b0 ∧ b0 ≤ 0xDF then
      match rest with
      | b1 :: _ =>
        if isTrail b1 then (some ((b0 - 0xC0) * 64 + (b1 - 0x80)), 2) else (none, 1)
      | [] => (none, 1)
    else if 0xE0 ≤ b0 ∧ b0 ≤ 0xEF then
      match rest with
      | b1 :: rest2 =>
        if validT1of3 b0 b1 then
          match rest2 with
          | b2 :: _ =>
            if isTrail b2 then
              (some (((b0 - 0xE0) * 64 + (b1 - 0x80)) * 64 + (b2 - 0x80)), 3)
            else (none, 2)
          | [] => (none, 2)
        else (none, 1)
      | [] => (none, 1)
    else if 0xF0 ≤ b0 ∧ b0 ≤ 0xF4 then
      match rest with
      | b1 :: rest2 =>
        if validT1of4 b0 b1 then
          match rest2 with
          | b2 :: rest3 =>
            if isTrail b2 then
              match rest3 with
              | b3 :: _ =>
                if isTrail b3 then
                  (some ((((b0 - 0xF0) * 64 + (b1 - 0x80)) * 64 + (b2 - 0x80)) * 64 + (b3 - 0x80)), 4)
                else (none, 3)
              | [] => (none, 3)
            else (none, 2)
          | [] => (none, 2)
        else (none, 1)
      | [] => (none, 1)
    else (none, 1)


/-- U8_NEXT followed by the FFFD substitution the decoding loops apply
to a negative result. -/
def u8Step (l : List Nat) : Nat × Nat :=
  match u8StepRaw l with
  | (none, n) => (0xFFFD, n)
  | (some c, n) => (c, n)

/-- U8_APPEND_UNSAFE: the UTF-8 bytes of one codepoint. -/
def utf8Encode (cp : Nat) : List Nat :=
  if cp ≤ 0x7F then [cp]
  else if cp ≤ 0x7FF then [0xC0 + cp / 64, 0x80 + cp % 64]
  else if cp ≤ 0xFFFF then [0xE0 + cp / 4096, 0x80 + cp / 64 % 64, 0x80 + cp % 64]
  else [0xF0 + cp / 262144, 0x80 + cp / 4096 % 64, 0x80 + cp / 64 % 64, 0x80 + cp % 64]

/-- A decoded rune: codepoint with its originating byte range (rune.h). -/
structure Rune where
  byte_start : Nat
  byte_end : Nat
  cp : Nat
deriving Repr, DecidableEq

/-- The decode loop of decode_to_runes: one rune per U8_NEXT step, byte
range from the position before the step to the position after.  One
fuel unit per step; each step consumes at least one byte, so a fuel of
the buffer length suffices. -/
def decodeRunesAux : Nat → List Nat → Nat → List Rune
  | 0, _, _ => []
  | _, [], _ => []
  | fuel + 1, b :: bs, pos =>
    let st := u8Step (b :: bs)
    { byte_start := pos, byte_end := pos + st.2, cp := st.1 } ::
      decodeRunesAux fuel ((b :: bs).drop st.2) (pos + st.2)

/-- PinyinTokenizer::decode_to_runes on a byte buffer. -/
def decode_to_runes (bytes : List Nat) : List Rune :=
  decodeRunesAux bytes.length bytes 0

/-- The byte ranges of a rune list tile the interval from `a` to `b`:
each rune starts where told, is nonempty, and hands over exactly at its
end. -/
def ChainFrom : Nat → Nat → List Rune → Prop
  | a, b, [] => a = b
  | a, b, r :: rs => r.byte_start = a ∧ a < r.byte_end ∧ ChainFrom r.byte_end b rs

/-! ## PinyinUtil::convert_with_raw_pinyin (pinyin_util.cpp)

The resolver decodes the text, runs the phrase matcher to exhaustion and
then fills unmatched positions from the single-codepoint table.  The
embedding takes the already-decoded codepoint list (the function decodes
its UTF-8 argument first; for well-formed input the two views agree) and
a table function standing for the _pinyin_dict vector (index = cp -
0x4E00, value = the raw comma-separated readings of that slot; the
vector is resized to the full CJK range, so the idx-in-range check of
the source never fails). -/

/-- UTF-8 length of one codepoint (U8_LENGTH). -/
def utf8Len (cp : Nat) : Nat :=
  if cp ≤ 0x7F then 1 else if cp ≤ 0x7FF then 2 else if cp ≤ 0xFFFF then 3 else 4

/-- Byte start offsets of the codepoints of a text (char_byte_starts). -/
def byteStarts : List Nat → Nat → List Nat
  | [], _ => []
  | cp :: rest, acc => acc :: byteStarts rest (acc + utf8Len cp)

/-- PinyinUtil::to_raw_pinyin: first comma-separated reading of the
single-codepoint table slot, empty outside the CJK range 4E00..9FA5. -/
def to_raw_pinyin (tbl : Nat → List Nat) (cp : Nat) : List Nat :=
  if cp < 0x4E00 ∨ 0x9FA5 < cp then []
  else
    let raw := tbl (cp - 0x4E00)
    if raw = [] then [] else raw.takeWhile (fun b => b ≠ 44)

/-- First index whose byte range contains `msb` (the char_start search;
-1 when no codepoint range contains it). -/
def findCharStart (starts : List Nat) (total msb : Nat) : Int :=
  go starts 0
where
  go : List Nat → Nat → Int
    | [], _ => -1
    | a :: rest, idx =>
      let nxt := match rest with
        | [] => total
        | b :: _ => b
      if a ≤ msb ∧ msb < nxt then Int.ofNat idx else go rest (idx + 1)

/-- First index whose byte start is at or past `meb` (the char_end
search; the caller replaces -1 by the codepoint count). -/
def findCharEnd (starts : List Nat) (meb : Nat) : Int :=
  go starts 0
where
  go : List Nat → Nat → Int
    | [], _ => -1
    | a :: rest, idx =>
      if meb ≤ a then Int.ofNat idx else go rest (idx + 1)

/-- The payload-assignment loop: write pinyins[i] to result[char_start+i]
for i below the matched character count and the payload size, guarding
each index as the source does. -/
def assignLoop (res : List (List Nat)) (proc : List Bool) (cs : Int)
    (pys : List (List Nat)) : Nat → Nat → List (List Nat) × List Bool
  | _, 0 => (res, proc)
  | idx, rem + 1 =>
    if idx < pys.length then
      let ci : Int := cs + Int.ofNat idx
      if 0 ≤ ci ∧ ci < Int.ofNat res.length then
        assignLoop (res.set ci.toNat (pys.getD idx [])) (proc.set ci.toNat true) cs pys
          (idx + 1) rem
      else assignLoop res proc cs pys (idx + 1) rem
    else (res, proc)

/-- The phrase-matching loop of convert_with_raw_pinyin: pull matches to
exhaustion; for each match interpret offe as a byte offset (the unit
mismatch of the source: offe counts runes) and the matched word's UTF-8
byte length, locate the covered character range and assign the payload.
One fuel unit per returned match. -/
def convertLoop (starts : List Nat) (total : Nat) :
    Nat → GWState → List (List Nat) → List Bool → List (List Nat) × List Bool
  | 0, _, res, proc => (res, proc)
  | fuel + 1, s, res, proc =>
    match getFrontWords s with
    | (w, s1) =>
      if w = nullResult ∨ w = [] then (res, proc)
      else
        let msb := s1.offe
        let meb := msb + (w.map utf8Len).sum
        let charStart := findCharStart starts total msb
        let charEnd0 := findCharEnd starts meb
        let charEnd := if charEnd0 = -1 then Int.ofNat starts.length else charEnd0
        let cnt := (charEnd - charStart).toNat
        match assignLoop res proc charStart s1.param 0 cnt with
        | (res1, proc1) => convertLoop starts total fuel s1 res1 proc1

/-- PinyinUtil::convert_with_raw_pinyin over the decoded codepoints of
the text: run the matcher loop, then fill every unprocessed position
from the single-codepoint table. -/
def convert_with_raw_pinyin (forest : SForest) (tbl : Nat → List Nat)
    (chars : List Nat) : List (List Nat) :=
  let starts := byteStarts chars 0
  let total := (chars.map utf8Len).sum
  match convertLoop starts total (chars.length + 1) (initState forest chars)
      (List.replicate chars.length []) (List.replicate chars.length false) with
  | (res, proc) =>
    (List.range chars.length).map fun idx =>
      if proc.getD idx false then res.getD idx []
      else to_raw_pinyin tbl (chars.getD idx 0)

/-- Trie of the resolver counterexample: the phrase 行货 with readings
hang2 huo4. -/
def trieC2 : SForest :=
  emptyForest.addWord (ascii "行货") [ascii "hang2", ascii "huo4"]

/-- Single-codepoint table of the resolver counterexample: readings for
中 (slot 45), 行 (slot 14924) and 货 (slot 16167). -/
def tblC2 : Nat → List Nat := fun idx =>
  if idx = 45 then ascii "zhong1,zhong4"
  else if idx = 14924 then ascii "xing2,hang2"
  else if idx = 16167 then ascii "huo4"
  else []

/-! ## PinyinFormatter (pinyin_formatter.cpp, pinyin_format.h)

Pure byte-level string transformations; std::string is embedded as a
byte list.  std::tolower / std::toupper act on ASCII letters only (C
locale), std::regex operations are embedded by the specialized
replacements they perform here. -/

/-- ToneType of pinyin_format.h. -/
inductive ToneType where
  | WITH_TONE_NUMBER | WITHOUT_TONE | WITH_TONE_MARK | WITH_ABBR
deriving DecidableEq

/-- YuCharType of pinyin_format.h. -/
inductive YuCharType where
  | WITH_U_AND_COLON | WITH_V | WITH_U_UNICODE
deriving DecidableEq

/-- CaseType of pinyin_format.h. -/
inductive CaseType where
  | LOWERCASE | UPPERCASE | CAPITALIZE
deriving DecidableEq

/-- PinyinFormat value (separator and onlyPinyin are not read by
formatPinyin). -/
structure PinyinFormat where
  yuCharType : YuCharType
  toneType : ToneType
  caseType : CaseType
deriving DecidableEq

/-- Byte-wise std::tolower (C locale). -/
def toLowerB (l : List Nat) : List Nat :=
  l.map fun b => if 65 ≤ b ∧ b ≤ 90 then b + 32 else b

/-- Byte-wise std::toupper (C locale). -/
def toUpperB (l : List Nat) : List Nat :=
  l.map fun b => if 97 ≤ b ∧ b ≤ 122 then b - 32 else b

/-- regex_replace of "u:" by "v" (bytes 117 58 by 118). -/
def replaceUColonV : List Nat → List Nat
  | 117 :: 58 :: rest => 118 :: replaceUColonV rest
  | b :: rest => b :: replaceUColonV rest
  | [] => []

/-- regex_replace of "u:" by the two UTF-8 bytes of the u-umlaut. -/
def replaceUColonUe : List Nat → List Nat
  | 117 :: 58 :: rest => 195 :: 188 :: replaceUColonUe rest
  | b :: rest => b :: replaceUColonUe rest
  | [] => []

/-- regex_replace of "v" by the two UTF-8 bytes of the u-umlaut. -/
def replaceVUe : List Nat → List Nat
  | 118 :: rest => 195 :: 188 :: replaceVUe rest
  | b :: rest => b :: replaceVUe rest
  | [] => []

/-- A lowercase ASCII letter byte. -/
def isLowerAZ (b : Nat) : Bool := decide (97 ≤ b ∧ b ≤ 122)

/-- A tone digit byte (1-5). -/
def isToneDigit (b : Nat) : Bool := decide (49 ≤ b ∧ b ≤ 53)

/-- Full match against the regex of lowercase letters followed by an
optional tone digit. -/
def shapeOpt (l : List Nat) : Bool :=
  l.all isLowerAZ || (!l.isEmpty && l.dropLast.all isLowerAZ && isToneDigit (l.getLastD 0))

/-- Full match against the regex of lowercase letters followed by a
mandatory tone digit. -/
def shapeTone (l : List Nat) : Bool :=
  !l.isEmpty && l.dropLast.all isLowerAZ && isToneDigit (l.getLastD 0)

/-- Index of the first occurrence of a byte. -/
def indexOfByte (b : Nat) : List Nat → Option Nat
  | [] => none
  | x :: rest => if x = b then some 0 else (indexOfByte b rest).map (· + 1)

/-- Index of the first occurrence of the two-byte substring "ou". -/
def indexOfOu : List Nat → Option Nat
  | 111 :: 117 :: _ => some 0
  | _ :: rest => (indexOfOu rest).map (· + 1)
  | [] => none

/-- A byte of the vowel row string "aeiouv". -/
def isVowelByte (b : Nat) : Bool := decide (b ∈ [97, 101, 105, 111, 117, 118])

/-- Rightmost vowel-row byte together with its index (the backwards
search of convertToneNumber2ToneMark). -/
def lastVowel : List Nat → Option (Nat × Nat)
  | [] => none
  | b :: rest =>
    match lastVowel rest with
    | some p => some (p.1 + 1, p.2)
    | none => if isVowelByte b then some (0, b) else none

/-- Row of a vowel byte inside "aeiouv". -/
def vowelRow (b : Nat) : Nat :=
  if b = 97 then 0 else if b = 101 then 1 else if b = 105 then 2
  else if b = 111 then 3 else if b = 117 then 4 else 5

/-- The bytes of the marked-vowel table string of pinyin_formatter.cpp
(六 rows a e i o u v times five tone columns; 55 UTF-8 bytes for the
30 characters). -/
def markedVowelBytes : List Nat :=
  [0xC4, 0x81, 0xC3, 0xA1, 0xC4, 0x83, 0xC3, 0xA0, 0x61,
   0xC4, 0x93, 0xC3, 0xA9, 0xC4, 0x95, 0xC3, 0xA8, 0x65,
   0xC4, 0xAB, 0xC3, 0xAD, 0xC4, 0xAD, 0xC3, 0xAC, 0x69,
   0xC5, 0x8D, 0xC3, 0xB3, 0xC5, 0x8F, 0xC3, 0xB2, 0x6F,
   0xC5, 0xAB, 0xC3, 0xBA, 0xC5, 0xAD, 0xC3, 0xB9, 0x75,
   0xC7, 0x96, 0xC7, 0x98, 0xC7, 0x9A, 0xC7, 0x9C, 0xC3, 0xBC]

/-- PinyinFormatter::convertToneNumber2ToneMark: lowercase, check the
shape, find the vowel to mark (literal a, else literal e, else the o of
"ou", else the rightmost of "aeiouv"), then build the result from the
prefix (v replaced by the u-umlaut bytes), one byte taken from the
marked-vowel table at the character-scale index row*5+tone-1 (the byte
slicing of the source), and the suffix before the tone digit. -/
def convertToneNumber2ToneMark (pinyin : List Nat) : List Nat :=
  let low := toLowerB pinyin
  if ¬ shapeOpt low then low
  else if shapeTone low then
    let tune := low.getLastD 0 - 48
    let found : Option (Nat × Nat) :=
      match indexOfByte 97 low with
      | some ia => some (ia, 97)
      | none =>
        match indexOfByte 101 low with
        | some ie => some (ie, 101)
        | none =>
          match indexOfOu low with
          | some io => some (io, 111)
          | none => lastVowel low
    match found with
    | none => low
    | some (idx, vowel) =>
      let loc := vowelRow vowel * 5 + (tune - 1)
      if loc < markedVowelBytes.length then
        replaceVUe (low.take idx) ++ (markedVowelBytes.drop loc).take 1 ++
          (if idx + 1 < low.length - 1 then
            replaceVUe ((low.drop (idx + 1)).take (low.length - 1 - idx - 1))
          else [])
      else low
  else replaceVUe low

/-- PinyinFormatter::abbr: the first UTF-8 character of the string,
re-encoded, or the first byte alone if the leading sequence is
ill-formed. -/
def abbrB (l : List Nat) : List Nat :=
  match l with
  | [] => []
  | _ :: _ =>
    match u8StepRaw l with
    | (none, _) => l.take 1
    | (some c, _) => utf8Encode c

/-- PinyinFormatter::capitalize: std::toupper on the first byte. -/
def capitalizeB : List Nat → List Nat
  | [] => []
  | b :: rest => (if 97 ≤ b ∧ b ≤ 122 then b - 32 else b) :: rest

/-- PinyinFormatter::formatPinyin: dispatch on the tone type (abbreviation
short-circuits; tone mark forces the Unicode u-umlaut representation and
converts the digit; otherwise the u-colon digraph is rewritten per the
yu type), then apply the case type. -/
def formatPinyin (pinyin : List Nat) (format : PinyinFormat) : List Nat :=
  if pinyin = [] then pinyin
  else if format.toneType = ToneType.WITH_ABBR then abbrB pinyin
  else
    let yu := if format.toneType = ToneType.WITH_TONE_MARK ∧
        (format.yuCharType = YuCharType.WITH_V ∨
         format.yuCharType = YuCharType.WITH_U_AND_COLON) then
      YuCharType.WITH_U_UNICODE else format.yuCharType
    let r1 :=
      if format.toneType = ToneType.WITHOUT_TONE then
        pinyin.filter fun b => ¬ isToneDigit b
      else if format.toneType = ToneType.WITH_TONE_MARK then
        convertToneNumber2ToneMark (replaceUColonV pinyin)
      else pinyin
    let r2 :=
      if format.toneType ≠ ToneType.WITH_TONE_MARK then
        match yu with
        | YuCharType.WITH_V => replaceUColonV r1
        | YuCharType.WITH_U_UNICODE => replaceUColonUe r1
        | YuCharType.WITH_U_AND_COLON => r1
      else r1
    match format.caseType with
    | CaseType.UPPERCASE => toUpperB r2
    | CaseType.CAPITALIZE => capitalizeB r2
    | CaseType.LOWERCASE => r2

/-! ## PinyinAlphabetTokenizer (pinyin_alphabet_tokenizer.cpp)

Byte-level segmentation of Latin runs by bounded forward / backward
maximum match against a flat syllable dictionary.  The dictionary file
(pinyin/pinyin_alphabet.dict) is loaded, lowercased and sorted at
startup and queried by binary search, which the embedding realizes as
membership in a word list. -/

/-- Modelled from the spec: the Latin syllable dictionary file
pinyin_alphabet.dict is not part of the sources under review; following
the spec (a flat dictionary of lowercase pinyin syllables, one per
line), it is modelled as the standard table of Mandarin pinyin
syllables. -/
def pinyinAlphabet : List (List Nat) :=
  ["a", "ai", "an", "ang", "ao", "ba", "bai", "ban", "bang", "bao", "bei", "ben",
   "beng", "bi", "bian", "biao", "bie", "bin", "bing", "bo", "bu", "ca", "cai", "can",
   "cang", "cao", "ce", "cen", "ceng", "cha", "chai", "chan", "chang", "chao", "che", "chen",
   "cheng", "chi", "chong", "chou", "chu", "chua", "chuai", "chuan", "chuang", "chui", "chun", "chuo",
   "ci", "cong", "cou", "cu", "cuan", "cui", "cun", "cuo", "da", "dai", "dan", "dang",
   "dao", "de", "dei", "den", "deng", "di", "dia", "dian", "diao", "die", "ding", "diu",
   "dong", "dou", "du", "duan", "dui", "dun", "duo", "e", "ei", "en", "eng", "er",
   "fa", "fan", "fang", "fei", "fen", "feng", "fo", "fou", "fu", "ga", "gai", "gan",
   "gang", "gao", "ge", "gei", "gen", "geng", "gong", "gou", "gu", "gua", "guai", "guan",
   "guang", "gui", "gun", "guo", "ha", "hai", "han", "hang", "hao", "he", "hei", "hen",
   "heng", "hong", "hou", "hu", "hua", "huai", "huan", "huang", "hui", "hun", "huo", "ji",
   "jia", "jian", "jiang", "jiao", "jie", "jin", "jing", "jiong", "jiu", "ju", "juan", "jue",
   "jun", "ka", "kai", "kan", "kang", "kao", "ke", "kei", "ken", "keng", "kong", "kou",
   "ku", "kua", "kuai", "kuan", "kuang", "kui", "kun", "kuo", "la", "lai", "lan", "lang",
   "lao", "le", "lei", "leng", "li", "lia", "lian", "liang", "liao", "lie", "lin", "ling",
   "liu", "lo", "long", "lou", "lu", "luan", "lun", "luo", "lv", "lve", "ma", "mai",
   "man", "mang", "mao", "me", "mei", "men", "meng", "mi", "mian", "miao", "mie", "min",
   "ming", "miu", "mo", "mou", "mu", "na", "nai", "nan", "nang", "nao", "ne", "nei",
   "nen", "neng", "ni", "nian", "niang", "niao", "nie", "nin", "ning", "niu", "nong", "nou",
   "nu", "nuan", "nuo", "nv", "nve", "o", "ou", "pa", "pai", "pan", "pang", "pao",
   "pei", "pen", "peng", "pi", "pian", "piao", "pie", "pin", "ping", "po", "pou", "pu",
   "qi", "qia", "qian", "qiang", "qiao", "qie", "qin", "qing", "qiong", "qiu", "qu", "quan",
   "que", "qun", "ran", "rang", "rao", "re", "ren", "reng", "ri", "rong", "rou", "ru",
   "rua", "ruan", "rui", "run", "ruo", "sa", "sai", "san", "sang", "sao", "se", "sen",
   "seng", "sha", "shai", "shan", "shang", "shao", "she", "shei", "shen", "sheng", "shi", "shou",
   "shu", "shua", "shuai", "shuan", "shuang", "shui", "shun", "shuo", "si", "song", "sou", "su",
   "suan", "sui", "sun", "suo", "ta", "tai", "tan", "tang", "tao", "te", "teng", "ti",
   "tian", "tiao", "tie", "ting", "tong", "tou", "tu", "tuan", "tui", "tun", "tuo", "wa",
   "wai", "wan", "wang", "wei", "wen", "weng", "wo", "wu", "xi", "xia", "xian", "xiang",
   "xiao", "xie", "xin", "xing", "xiong", "xiu", "xu", "xuan", "xue", "xun", "ya", "yan",
   "yang", "yao", "ye", "yi", "yin", "ying", "yo", "yong", "you", "yu", "yuan", "yue",
   "yun", "za", "zai", "zan", "zang", "zao", "ze", "zei", "zen", "zeng", "zha", "zhai",
   "zhan", "zhang", "zhao", "zhe", "zhei", "zhen", "zheng", "zhi", "zhong", "zhou", "zhu", "zhua",
   "zhuai", "zhuan", "zhuang", "zhui", "zhun", "zhuo", "zi", "zong", "zou", "zu", "zuan", "zui",
   "zun", "zuo"].map ascii

/-- PinyinAlphabetDict::match: dictionary membership (binary search over
the sorted dictionary). -/
def alphaMatch (dict : List (List Nat)) (w : List Nat) : Bool :=
  dict.contains w

/-- kPinyinMaxLength. -/
def kPinyinMaxLength : Nat := 6

/-- An ASCII letter byte (the is_letter helper). -/
def isLetterB (b : Nat) : Bool :=
  decide ((97 ≤ b ∧ b ≤ 122) ∨ (65 ≤ b ∧ b ≤ 90))

/-- The splitByNoletter loop: maximal letter runs and maximal non-letter
runs become separate segments, in order. -/
def splitAux : List Nat → List (List Nat) → List Nat → Bool → List (List Nat)
  | [], res, buf, _ => if buf.isEmpty then res else res ++ [buf]
  | b :: rest, res, buf, lastWord =>
    if isLetterB b then
      if ¬ lastWord then splitAux rest (res ++ [buf]) [b] true
      else splitAux rest res (buf ++ [b]) true
    else
      if lastWord ∧ ¬ buf.isEmpty then splitAux rest (res ++ [buf]) [b] false
      else splitAux rest res (buf ++ [b]) false

/-- PinyinAlphabetTokenizer::splitByNoletter. -/
def splitByNoletter (l : List Nat) : List (List Nat) :=
  splitAux l [] [] true

/-- The inner guess loop of positiveMaxMatch: longest dictionary prefix
of the window, trying the full window first and shrinking from the
right; the counter mirrors the loop index bound. -/
def findPref (dict : List (List Nat)) : Nat → List Nat → Option (List Nat)
  | 0, _ => none
  | j + 1, w =>
    if w.isEmpty then none
    else if alphaMatch dict w then some w
    else findPref dict j w.dropLast

/-- The inner guess loop of reverseMaxMatch: longest dictionary suffix of
the window, shrinking from the left. -/
def findSuf (dict : List (List Nat)) : Nat → List Nat → Option (List Nat)
  | 0, _ => none
  | j + 1, w =>
    if w.isEmpty then none
    else if alphaMatch dict w then some w
    else findSuf dict j (w.drop 1)

/-- The loop of positiveMaxMatch: from the left, match the longest
dictionary prefix of the next window of at most kPinyinMaxLength bytes;
unmatched bytes accumulate in a buffer that is flushed after the next
match (and at the end).  One fuel unit per iteration; the start offset
advances every iteration, so the run length plus one suffices. -/
def posAux (dict : List (List Nat)) (text : List Nat) :
    Nat → Nat → List (List Nat) → List Nat → List (List Nat)
  | 0, _, out, buf => if buf.isEmpty then out else out ++ [buf]
  | fuel + 1, start, out, buf =>
    if start < text.length then
      let six := (text.drop start).take kPinyinMaxLength
      match findPref dict six.length six with
      | some g =>
        posAux dict text fuel (start + g.length)
          ((out ++ [g]) ++ if buf.isEmpty then [] else [buf]) []
      | none => posAux dict text fuel (start + 1) out (buf ++ six.take 1)
    else if buf.isEmpty then out else out ++ [buf]

/-- PinyinAlphabetTokenizer::positiveMaxMatch. -/
def positiveMaxMatch (dict : List (List Nat)) (text : List Nat) : List (List Nat) :=
  posAux dict text (text.length + 1) 0 [] []

/-- The loop of reverseMaxMatch: from the right, match the longest
dictionary suffix of the window ending at the current offset; the
resulting token list is reversed at the end. -/
def revAux (dict : List (List Nat)) (text : List Nat) :
    Nat → Nat → List (List Nat) → List Nat → List (List Nat)
  | 0, _, out, buf => if buf.isEmpty then out else out ++ [buf]
  | fuel + 1, e, out, buf =>
    let start := e - kPinyinMaxLength
    if start = e then (if buf.isEmpty then out else out ++ [buf])
    else
      let six := (text.drop start).take (e - start)
      match findSuf dict six.length six with
      | some g =>
        revAux dict text fuel (e - g.length)
          ((out ++ [g]) ++ if buf.isEmpty then [] else [buf]) []
      | none => revAux dict text fuel (e - 1) out (buf ++ [six.getLastD 0])

/-- PinyinAlphabetTokenizer::reverseMaxMatch. -/
def reverseMaxMatch (dict : List (List Nat)) (text : List Nat) : List (List Nat) :=
  (revAux dict text (text.length + 1) text.length [] []).reverse

/-- The per-segment branch of segPinyinStr: single bytes pass through;
longer letter runs take the forward segmentation when it is a single
token or has at most as many tokens as the backward segmentation, and
the backward segmentation otherwise. -/
def segOne (dict : List (List Nat)) (text : List Nat) : List (List Nat) :=
  if text.length = 1 then [text]
  else
    let fwd := positiveMaxMatch dict text
    if fwd.length = 1 then fwd
    else
      let bwd := reverseMaxMatch dict text
      if fwd.length ≤ bwd.length then fwd else bwd

/-- PinyinAlphabetTokenizer::segPinyinStr: lowercase, split at non-letter
boundaries, segment each piece, concatenate. -/
def segPinyinStr (dict : List (List Nat)) (content : List Nat) : List (List Nat) :=
  ((splitByNoletter (toLowerB content)).map (segOne dict)).flatten

/-! ## PinyinTokenizer configuration and candidates (pinyin_tokenizer.cpp)

PinyinConfig (pinyin_config.h is not under the sources reviewed here;
the boolean fields are exactly the ones the tokenizer reads, cf. the
Config description of the spec). -/

/-- Tokenizer configuration flags. -/
structure PinyinConfig where
  keepFirstLetter : Bool
  keepSeparateFirstLetter : Bool
  keepFullPinyin : Bool
  keepJoinedFullPinyin : Bool
  keepSeparateChinese : Bool
  keepNoneChinese : Bool
  keepNoneChineseTogether : Bool
  keepNoneChineseInFirstLetter : Bool
  keepNoneChineseInJoinedFullPinyin : Bool
  keepOriginal : Bool
  noneChinesePinyinTokenize : Bool
  fixedPinyinOffset : Bool
  lowercase : Bool
  trimWhitespace : Bool
  removeDuplicateTerm : Bool
  ignoreOffsetTracking : Bool
  limitFirstLetterLength : Nat

/-- The throw condition of the PinyinTokenizer constructor: construction
fails exactly when none of the five reading-retention flags is set. -/
def pinyinTokenizerCtorFails (c : PinyinConfig) : Bool :=
  !(c.keepFirstLetter || c.keepSeparateFirstLetter || c.keepFullPinyin ||
    c.keepJoinedFullPinyin || c.keepSeparateChinese)

/-- One candidate term with byte offsets and logical position
(term_item.h as used by pinyin_tokenizer.cpp). -/
structure TermItem where
  term : List Nat
  start_offset : Nat
  end_offset : Nat
  position : Nat
deriving DecidableEq

/-- Candidate-collection state: the candidate list and the dedup filter
set (an unordered_set of key strings, embedded as the list of inserted
keys). -/
structure TokState where
  candidates : List TermItem
  filter : List (List Nat)
deriving DecidableEq

/-- A byte std::isspace holds for in the C locale. -/
def isSpaceB (b : Nat) : Bool := decide (b = 32 ∨ (9 ≤ b ∧ b ≤ 13))

/-- Trim whitespace bytes from both ends (the two erase calls of
addCandidate). -/
def trimB (l : List Nat) : List Nat :=
  ((l.dropWhile isSpaceB).reverse.dropWhile isSpaceB).reverse

/-- The term normalization addCandidate applies before dedup: optional
lowercasing, optional trimming. -/
def processTerm (cfg : PinyinConfig) (t : List Nat) : List Nat :=
  let t1 := if cfg.lowercase then toLowerB t else t
  if cfg.trimWhitespace then trimB t1 else t1

/-- std::to_string of a nonnegative position: decimal ASCII digits. -/
def natStr (n : Nat) : List Nat :=
  if n = 0 then [48] else ((Nat.digits 10 n).reverse.map (· + 48))

/-- PinyinTokenizer::addCandidate: normalize the term, drop it when
empty, build the dedup key (the term alone under removeDuplicateTerm,
otherwise the term with the decimal position appended), reject repeated
keys, and append the candidate. -/
def addCandidate (cfg : PinyinConfig) (st : TokState) (it : TermItem) : TokState :=
  let term := processTerm cfg it.term
  if term.isEmpty then st
  else
    let key := if cfg.removeDuplicateTerm then term else term ++ natStr it.position
    if st.filter.contains key then st
    else
      { candidates := st.candidates ++
          [{ term := term, start_offset := it.start_offset,
             end_offset := it.end_offset, position := it.position }],
        filter := st.filter ++ [key] }

/-- Candidate state at the start of a tokenization (reset clears both
containers). -/
def emptyTokState : TokState := { candidates := [], filter := [] }

/-- Insert a sequence of candidates. -/
def addCandidates (cfg : PinyinConfig) (items : List TermItem) : TokState :=
  items.foldl (addCandidate cfg) emptyTokState

/-! ## Theorems -/

/-- C10: the boundary-rule classification: a codepoint counts as an
English letter exactly when it lies between the codes of A and z, so
the six ASCII punctuation codepoints 91-96 (between Z and a) count as
letters; a digit is exactly 48-57; and two codepoints are same-class
exactly when both are letters or both are digits in this sense. -/
theorem checkSame_classification :
    (∀ c : Nat, isE c = true ↔ (65 ≤ c ∧ c ≤ 122)) ∧
    (isE 91 = true ∧ isE 92 = true ∧ isE 93 = true ∧
     isE 94 = true ∧ isE 95 = true ∧ isE 96 = true) ∧
    (∀ c : Nat, isNum c = true ↔ (48 ≤ c ∧ c ≤ 57)) ∧
    (∀ l c : Nat, checkSame l c = true ↔
      ((isE l = true ∧ isE c = true) ∨ (isNum l = true ∧ isNum c = true))) := by
  refine ⟨fun c => by simp [isE], by decide, fun c => by simp [isNum], fun l c => ?_⟩
  simp [checkSame]

/-- C7: the PinyinTokenizer constructor throws exactly when all five of
keepFirstLetter, keepSeparateFirstLetter, keepFullPinyin,
keepJoinedFullPinyin and keepSeparateChinese are disabled; since the
throw condition is this very predicate, no other configuration value
can make construction fail. -/
theorem pinyin_config_validation :
    ∀ cfg : PinyinConfig, pinyinTokenizerCtorFails cfg = true ↔
      (cfg.keepFirstLetter = false ∧ cfg.keepSeparateFirstLetter = false ∧
       cfg.keepFullPinyin = false ∧ cfg.keepJoinedFullPinyin = false ∧
       cfg.keepSeparateChinese = false) := by
  intro cfg
  simp only [pinyinTokenizerCtorFails, Bool.not_eq_true', Bool.or_eq_false_iff]
  tauto

/-- Each U8_NEXT step consumes at least one byte and never more than the
bytes available. -/
lemma u8StepRaw_bounds (b0 : Nat) (rest : List Nat) :
    1 ≤ (u8StepRaw (b0 :: rest)).2 ∧ (u8StepRaw (b0 :: rest)).2 ≤ (b0 :: rest).length := by
  rcases rest with _ | ⟨b1, _ | ⟨b2, _ | ⟨b3, rest4⟩⟩⟩ <;>
    · simp only [u8StepRaw, List.length]
      split_ifs <;> simp_arith

/-- The bounds transfer to the FFFD-substituted step. -/
lemma u8Step_bounds (b0 : Nat) (rest : List Nat) :
    1 ≤ (u8Step (b0 :: rest)).2 ∧ (u8Step (b0 :: rest)).2 ≤ (b0 :: rest).length := by
  have h := u8StepRaw_bounds b0 rest
  unfold u8Step
  rcases hr : u8StepRaw (b0 :: rest) with ⟨c, n⟩
  rcases c with _ | c <;> simpa [hr] using h

/-- The decode loop tiles the byte interval it is given, provided the
fuel covers the remaining bytes. -/
lemma decodeRunesAux_chain :
    ∀ fuel bs pos, List.length bs ≤ fuel →
      ChainFrom pos (pos + bs.length) (decodeRunesAux fuel bs pos) := by
  intro fuel
  induction fuel with
  | zero =>
    intro bs pos h
    have hb : bs = [] := List.length_eq_zero.mp (Nat.le_zero.mp h)
    subst hb
    simp [decodeRunesAux, ChainFrom]
  | succ fuel ih =>
    intro bs pos h
    match bs with
    | [] => simp [decodeRunesAux, ChainFrom]
    | b :: bs2 =>
      have hb := u8Step_bounds b bs2
      simp only [decodeRunesAux, ChainFrom, true_and]
      refine ⟨by omega, ?_⟩
      have hlen : ((b :: bs2).drop (u8Step (b :: bs2)).2).length ≤ fuel := by
        simp only [List.length_drop]
        simp only [List.length] at h ⊢
        omega
      have := ih ((b :: bs2).drop (u8Step (b :: bs2)).2) (pos + (u8Step (b :: bs2)).2) hlen
      have harr : pos + (u8Step (b :: bs2)).2 +
          ((b :: bs2).drop (u8Step (b :: bs2)).2).length = pos + (b :: bs2).length := by
        simp only [List.length_drop]
        omega
      rwa [harr] at this

/-- Tiling implies that every rune has a nonempty byte range. -/
lemma ChainFrom_pos : ∀ a b rs, ChainFrom a b rs → ∀ r ∈ rs, r.byte_start < r.byte_end := by
  intro a b rs
  induction rs generalizing a with
  | nil => intro _ r hr; cases hr
  | cons r0 rest ih =>
    intro h r hr
    rcases h with ⟨h1, h2, h3⟩
    rcases List.mem_cons.mp hr with hr | hr
    · subst hr; omega
    · exact ih _ h3 r hr

/-- C9: rune decoding partitions the input bytes: the byte ranges of the
decoded runes are contiguous (each rune ends where the next starts),
nonempty, start at 0 and end at the input length — ChainFrom 0 len
states exactly this — and the rune list is empty only for empty input,
including inputs with ill-formed UTF-8 (replaced by U+FFFD, never
dropped). -/
theorem decode_to_runes_partition :
    ∀ bytes : List Nat,
      ChainFrom 0 bytes.length (decode_to_runes bytes) ∧
      (decode_to_runes bytes = [] ↔ bytes = []) ∧
      (∀ r ∈ decode_to_runes bytes, r.byte_start < r.byte_end) := by
  intro bytes
  have hchain := decodeRunesAux_chain bytes.length bytes 0 (Nat.le_refl _)
  rw [Nat.zero_add] at hchain
  refine ⟨hchain, ⟨?_, ?_⟩, ChainFrom_pos 0 bytes.length _ hchain⟩
  · intro h
    cases bytes with
    | nil => rfl
    | cons b bs2 =>
      simp only [decode_to_runes, List.length, decodeRunesAux] at h
      exact absurd h (List.cons_ne_nil _ _)
  · intro h
    subst h
    rfl

/-- natStr of a nonzero number. -/
lemma natStr_of_ne_zero {k : Nat} (hk : k ≠ 0) :
    natStr k = (Nat.digits 10 k).reverse.map (· + 48) := by
  simp [natStr, hk]

/-- Decimal representations of distinct naturals differ. -/
lemma natStr_inj : ∀ m n : Nat, natStr m = natStr n → m = n := by
  have hlast : ∀ k : Nat, k ≠ 0 → natStr k ≠ [48] := by
    intro k hk h
    rw [natStr_of_ne_zero hk] at h
    have hlen : ((Nat.digits 10 k).reverse.map (· + 48)).length = 1 := by rw [h]; rfl
    simp only [List.length_map, List.length_reverse] at hlen
    rcases List.length_eq_one.mp hlen with ⟨d, hd⟩
    rw [hd] at h
    simp only [List.reverse_cons, List.reverse_nil, List.nil_append, List.map_cons,
      List.map_nil, List.cons.injEq, and_true] at h
    have hkd : k = d := by
      conv_lhs => rw [← Nat.ofDigits_digits 10 k, hd]
      simp [Nat.ofDigits_singleton]
    omega
  intro m n h
  by_cases hm : m = 0 <;> by_cases hn : n = 0
  · omega
  · subst hm
    have h0 : natStr 0 = [48] := by simp [natStr]
    rw [h0] at h
    exact absurd h.symm (hlast n hn)
  · subst hn
    have h0 : natStr 0 = [48] := by simp [natStr]
    rw [h0] at h
    exact absurd h (hlast m hm)
  · rw [natStr_of_ne_zero hm, natStr_of_ne_zero hn] at h
    have h2 : (Nat.digits 10 m).reverse = (Nat.digits 10 n).reverse :=
      List.map_injective_iff.mpr (add_left_injective 48) h
    have h3 : Nat.digits 10 m = Nat.digits 10 n := List.reverse_injective h2
    calc m = Nat.ofDigits 10 (Nat.digits 10 m) := (Nat.ofDigits_digits 10 m).symm
    _ = Nat.ofDigits 10 (Nat.digits 10 n) := by rw [h3]
    _ = n := Nat.ofDigits_digits 10 n

/-- Candidate-state invariant in removeDuplicateTerm mode: every stored
candidate left its term in the filter, and no two stored candidates
share a term. -/
def DedupInv (st : TokState) : Prop :=
  (∀ cand ∈ st.candidates, cand.term ∈ st.filter) ∧
  st.candidates.Pairwise (fun a b => a.term ≠ b.term)

/-- addCandidate preserves the dedup invariant when the key is the bare
term. -/
lemma addCandidate_dedupInv (cfg : PinyinConfig) (h : cfg.removeDuplicateTerm = true)
    (st : TokState) (it : TermItem) (hinv : DedupInv st) :
    DedupInv (addCandidate cfg st it) := by
  rcases hinv with ⟨hmem, hpw⟩
  simp only [addCandidate, h, if_true]
  split
  · exact ⟨hmem, hpw⟩
  · split
    · exact ⟨hmem, hpw⟩
    · rename_i hempty hcont
      constructor
      · intro cand hc
        rcases List.mem_append.mp hc with hc | hc
        · exact List.mem_append_left _ (hmem cand hc)
        · simp only [List.mem_singleton] at hc
          subst hc
          exact List.mem_append_right _ (List.mem_singleton_self _)
      · rw [List.pairwise_append]
        refine ⟨hpw, List.pairwise_singleton _ _, ?_⟩
        intro a ha b hb
        simp only [List.mem_singleton] at hb
        subst hb
        intro hterm
        apply hcont
        apply List.elem_eq_true_of_mem
        have := hmem a ha
        simp only [TermItem.mk.injEq] at hterm
        rw [← hterm]
        exact this

/-- The dedup invariant holds after any insertion sequence. -/
lemma addCandidates_dedupInv (cfg : PinyinConfig) (h : cfg.removeDuplicateTerm = true)
    (items : List TermItem) :
    DedupInv (addCandidates cfg items) := by
  unfold addCandidates
  have hstep : ∀ items0 st, DedupInv st →
      DedupInv (List.foldl (addCandidate cfg) st items0) := by
    intro items0
    induction items0 with
    | nil => intro st hst; exact hst
    | cons it rest ih =>
      intro st hst
      exact ih _ (addCandidate_dedupInv cfg h st it hst)
  exact hstep items emptyTokState
    ⟨fun c hc => absurd hc (List.not_mem_nil c), List.Pairwise.nil⟩

/-- C8: the dedup law of addCandidate: with removeDuplicateTerm the key
is the normalized term alone, so after any insertion sequence the
candidate list holds at most one candidate per term, and inserting the
same term at two different positions leaves exactly one candidate;
without removeDuplicateTerm the key is the term with the decimal
position appended, so a repeated term is rejected exactly when it
repeats at the same position. -/
theorem addCandidate_dedup_law :
    (∀ cfg : PinyinConfig, cfg.removeDuplicateTerm = true → ∀ items : List TermItem,
      (addCandidates cfg items).candidates.Pairwise (fun a b => a.term ≠ b.term)) ∧
    (∀ (cfg : PinyinConfig) (t : List Nat) (s1 e1 p s2 e2 q : Nat),
      cfg.removeDuplicateTerm = true → processTerm cfg t ≠ [] →
      (addCandidates cfg
          [{ term := t, start_offset := s1, end_offset := e1, position := p },
           { term := t, start_offset := s2, end_offset := e2, position := q }]).candidates.map
        (fun c => c.term) = [processTerm cfg t]) ∧
    (∀ (cfg : PinyinConfig) (t : List Nat) (s1 e1 p s2 e2 q : Nat),
      cfg.removeDuplicateTerm = false → processTerm cfg t ≠ [] →
      ((p ≠ q → (addCandidates cfg
          [{ term := t, start_offset := s1, end_offset := e1, position := p },
           { term := t, start_offset := s2, end_offset := e2, position := q }]).candidates.map
        (fun c => c.term) = [processTerm cfg t, processTerm cfg t]) ∧
       (p = q → (addCandidates cfg
          [{ term := t, start_offset := s1, end_offset := e1, position := p },
           { term := t, start_offset := s2, end_offset := e2, position := q }]).candidates.map
        (fun c => c.term) = [processTerm cfg t]))) := by
  refine ⟨?_, ?_, ?_⟩
  · intro cfg hdup items
    exact (addCandidates_dedupInv cfg hdup items).2
  · intro cfg t s1 e1 p s2 e2 q hdup hne
    have hemp : (processTerm cfg t).isEmpty = false := by
      simpa [List.isEmpty_iff] using hne
    simp [addCandidates, addCandidate, emptyTokState, hdup, hemp]
  · intro cfg t s1 e1 p s2 e2 q hdup hne
    have hemp : (processTerm cfg t).isEmpty = false := by
      simpa [List.isEmpty_iff] using hne
    constructor
    · intro hpq
      have hkey : ¬ (processTerm cfg t ++ natStr q = processTerm cfg t ++ natStr p) := by
        intro hk
        exact hpq (natStr_inj q p (List.append_cancel_left hk)).symm
      simp [addCandidates, addCandidate, emptyTokState, hdup, hemp, hkey]
    · intro hpq
      subst hpq
      simp [addCandidates, addCandidate, emptyTokState, hdup, hemp]

/-- Witness for C8: inserting the term ab at positions 1 and 2 yields one
candidate under removeDuplicateTerm and two candidates without it. -/
theorem addCandidate_dedup_law_witness :
    (addCandidates
        { keepFirstLetter := true, keepSeparateFirstLetter := false,
          keepFullPinyin := true, keepJoinedFullPinyin := false,
          keepSeparateChinese := false, keepNoneChinese := true,
          keepNoneChineseTogether := true, keepNoneChineseInFirstLetter := true,
          keepNoneChineseInJoinedFullPinyin := false, keepOriginal := false,
          noneChinesePinyinTokenize := true, fixedPinyinOffset := false,
          lowercase := true, trimWhitespace := true, removeDuplicateTerm := true,
          ignoreOffsetTracking := false, limitFirstLetterLength := 16 }
        [{ term := ascii "ab", start_offset := 0, end_offset := 2, position := 1 },
         { term := ascii "ab", start_offset := 4, end_offset := 6, position := 2 }]).candidates.map
      (fun c => c.term) = [ascii "ab"] ∧
    (addCandidates
        { keepFirstLetter := true, keepSeparateFirstLetter := false,
          keepFullPinyin := true, keepJoinedFullPinyin := false,
          keepSeparateChinese := false, keepNoneChinese := true,
          keepNoneChineseTogether := true, keepNoneChineseInFirstLetter := true,
          keepNoneChineseInJoinedFullPinyin := false, keepOriginal := false,
          noneChinesePinyinTokenize := true, fixedPinyinOffset := false,
          lowercase := true, trimWhitespace := true, removeDuplicateTerm := false,
          ignoreOffsetTracking := false, limitFirstLetterLength := 16 }
        [{ term := ascii "ab", start_offset := 0, end_offset := 2, position := 1 },
         { term := ascii "ab", start_offset := 4, end_offset := 6, position := 2 }]).candidates.map
      (fun c => c.term) = [ascii "ab", ascii "ab"] := by
  constructor
  · have h := addCandidate_dedup_law.2.1
      { keepFirstLetter := true, keepSeparateFirstLetter := false,
        keepFullPinyin := true, keepJoinedFullPinyin := false,
        keepSeparateChinese := false, keepNoneChinese := true,
        keepNoneChineseTogether := true, keepNoneChineseInFirstLetter := true,
        keepNoneChineseInJoinedFullPinyin := false, keepOriginal := false,
        noneChinesePinyinTokenize := true, fixedPinyinOffset := false,
        lowercase := true, trimWhitespace := true, removeDuplicateTerm := true,
        ignoreOffsetTracking := false, limitFirstLetterLength := 16 }
      (ascii "ab") 0 2 1 4 6 2 rfl (by decide)
    simpa using h
  · have h := (addCandidate_dedup_law.2.2
      { keepFirstLetter := true, keepSeparateFirstLetter := false,
        keepFullPinyin := true, keepJoinedFullPinyin := false,
        keepSeparateChinese := false, keepNoneChinese := true,
        keepNoneChineseTogether := true, keepNoneChineseInFirstLetter := true,
        keepNoneChineseInJoinedFullPinyin := false, keepOriginal := false,
        noneChinesePinyinTokenize := true, fixedPinyinOffset := false,
        lowercase := true, trimWhitespace := true, removeDuplicateTerm := false,
        ignoreOffsetTracking := false, limitFirstLetterLength := 16 }
      (ascii "ab") 0 2 1 4 6 2 rfl (by decide)).1 (by decide)
    simpa using h

/-- C3 (code bug): formatting da3 with WITH_TONE_MARK / WITH_U_UNICODE /
lowercase returns the two bytes 0x64 0xC3 instead of the claimed UTF-8
of the a-caron form (0x64 0xC7 0x8E): the marked-vowel table is sliced
one byte at a character-scale index (and stores breve, not caron,
vowels).  Likewise lv4 under WITH_TONE_MARK returns 0x6C 0x8D instead
of 0x6C 0xC7 0x9C. -/
theorem formatPinyin_tone_mark_byte_slice :
    formatPinyin (ascii "da3")
        { yuCharType := YuCharType.WITH_U_UNICODE, toneType := ToneType.WITH_TONE_MARK,
          caseType := CaseType.LOWERCASE } = [0x64, 0xC3] ∧
    [0x64, 0xC3] ≠ [0x64, 0xC7, 0x8E] ∧
    formatPinyin (ascii "lv4")
        { yuCharType := YuCharType.WITH_U_AND_COLON, toneType := ToneType.WITH_TONE_MARK,
          caseType := CaseType.LOWERCASE } = [0x6C, 0x8D] ∧
    [0x6C, 0x8D] ≠ [0x6C, 0xC7, 0x9C] := by
  refine ⟨by decide, by decide, by decide, by decide⟩

/-- C2 (code bug): resolving 中行货 against the phrase 行货 (readings
hang2 huo4).  The phrase matches at rune index 1, so the claim assigns
hang2 huo4 to result positions 1 and 2 and the single-character reading
zhong1 to position 0; the code interprets the rune offset as a byte
offset and lands the payload at positions 0 and 1 instead. -/
theorem convert_with_raw_pinyin_offset_mismatch :
    convert_with_raw_pinyin trieC2 tblC2 (ascii "中行货") =
      [ascii "hang2", ascii "huo4", ascii "huo4"] ∧
    [ascii "hang2", ascii "huo4", ascii "huo4"] ≠
      [ascii "zhong1", ascii "hang2", ascii "huo4"] := by
  refine ⟨by decide, by decide⟩

/-- Every exit of the reverse-match loop flushes the pending buffer, so
the token list stays nonempty once a token or buffered byte exists. -/
lemma revAux_ne_nil (dict : List (List Nat)) (text : List Nat) :
    ∀ fuel e out buf, (out ≠ [] ∨ buf ≠ []) → revAux dict text fuel e out buf ≠ [] := by
  intro fuel
  induction fuel with
  | zero =>
    intro e out buf h
    simp only [revAux]
    split
    · rcases h with h | h
      · exact h
      · rename_i hb
        exact absurd (List.isEmpty_iff.mp hb) h
    · exact fun hc => absurd hc (List.append_ne_nil_of_right_ne_nil _ (by simp))
  | succ fuel ih =>
    intro e out buf h
    simp only [revAux]
    split
    · split
      · rcases h with h | h
        · exact h
        · rename_i hb
          exact absurd (List.isEmpty_iff.mp hb) h
      · exact fun hc => absurd hc (List.append_ne_nil_of_right_ne_nil _ (by simp))
    · split
      · exact ih _ _ _ (Or.inl (fun hc => by
          rcases List.append_eq_nil.mp hc with ⟨hc1, _⟩
          exact absurd hc1 (List.append_ne_nil_of_right_ne_nil _ (by simp))))
      · exact ih _ _ _ (Or.inr (List.append_ne_nil_of_right_ne_nil _ (by simp)))

/-- The backward segmentation of a nonempty run is nonempty. -/
lemma reverseMaxMatch_ne_nil (dict : List (List Nat)) (text : List Nat)
    (h : text ≠ []) : reverseMaxMatch dict text ≠ [] := by
  unfold reverseMaxMatch
  rw [Ne, List.reverse_eq_nil_iff]
  have hlen : 1 ≤ text.length := List.length_pos.mpr h
  simp only [revAux]
  rw [if_neg (by simp only [kPinyinMaxLength]; omega)]
  split
  · apply revAux_ne_nil
    left
    simp
  · apply revAux_ne_nil
    right
    simp

set_option maxRecDepth 40000 in
set_option maxHeartbeats 2000000 in
/-- C6: the Latin segmenter emits the backward maximum-match segmentation
of a letter span of two or more characters exactly when it has strictly
fewer tokens than the forward segmentation, and the forward
segmentation on ties or when forward is not longer (the forward
single-token shortcut agrees because a backward segmentation of a
nonempty span is never empty); on the modelled standard syllable table,
walking woshiliang gives wo shi liang and walking
zhonghuarenmingongheguo gives zhong hua ren min gong he guo. -/
theorem latin_segmenter_tie_break :
    (∀ (dict : List (List Nat)) (text : List Nat), 2 ≤ text.length →
      segOne dict text =
        if (reverseMaxMatch dict text).length < (positiveMaxMatch dict text).length then
          reverseMaxMatch dict text
        else positiveMaxMatch dict text) ∧
    segPinyinStr pinyinAlphabet (ascii "woshiliang") =
      [ascii "wo", ascii "shi", ascii "liang"] ∧
    segPinyinStr pinyinAlphabet (ascii "zhonghuarenmingongheguo") =
      [ascii "zhong", ascii "hua", ascii "ren", ascii "min", ascii "gong",
       ascii "he", ascii "guo"] := by
  refine ⟨?_, by decide, by decide⟩
  intro dict text hlen
  have hne : text ≠ [] := by
    intro hc
    rw [hc] at hlen
    simp at hlen
  have hbwd := reverseMaxMatch_ne_nil dict text hne
  unfold segOne
  rw [if_neg (by omega)]
  by_cases hf : (positiveMaxMatch dict text).length = 1
  · rw [if_pos hf, if_neg]
    rw [hf]
    have : 1 ≤ (reverseMaxMatch dict text).length := List.length_pos.mpr hbwd
    omega
  · rw [if_neg hf]
    by_cases hle :
        (positiveMaxMatch dict text).length ≤ (reverseMaxMatch dict text).length
    · rw [if_pos hle, if_neg (by omega)]
    · rw [if_neg hle, if_pos (by omega)]

/-- Witness for C6: the tie-break rule instantiated on woshiliang over
the modelled syllable table. -/
theorem latin_segmenter_tie_break_witness :
    segOne pinyinAlphabet (ascii "woshiliang") =
      if (reverseMaxMatch pinyinAlphabet (ascii "woshiliang")).length <
          (positiveMaxMatch pinyinAlphabet (ascii "woshiliang")).length then
        reverseMaxMatch pinyinAlphabet (ascii "woshiliang")
      else positiveMaxMatch pinyinAlphabet (ascii "woshiliang") :=
  latin_segmenter_tie_break.1 pinyinAlphabet (ascii "woshiliang") (by decide)

/-! ### Matcher lemmas -/

/-- Walking a concatenation walks the parts in order. -/
lemma walk_append (a : List Nat) : ∀ (t : SForest) (b : List Nat),
    walk t (a ++ b) = (walk t a).bind (fun n => walk n b) := by
  induction a with
  | nil => intro t b; simp [walk]
  | cons c rest ih =>
    intro t b
    simp only [List.cons_append, walk]
    cases t.getBranch c with
    | none => simp
    | some ch => simpa using ih ch b

/-- A failed walk of a prefix fails for every extension. -/
lemma walk_none_of_prefix {t : SForest} {a : List Nat} (h : walk t a = none)
    (b : List Nat) : walk t (a ++ b) = none := by
  rw [walk_append, h]
  rfl

/-- Chosen children are members of the children list. -/
lemma findChild_mem : ∀ (cs : List SForest) (cp : Nat) (ch : SForest),
    findChild cs cp = some ch → ch ∈ cs := by
  intro cs cp ch
  induction cs with
  | nil => intro h; cases h
  | cons c0 rest ih =>
    intro h
    simp only [findChild] at h
    split at h
    · cases h
      exact List.mem_cons_self _ _
    · exact List.mem_cons_of_mem _ (ih h)

/-- Wf3 is inherited by children. -/
lemma Wf3_getBranch {t ch : SForest} {cp : Nat} (hw : Wf3 t)
    (h : t.getBranch cp = some ch) : Wf3 ch := by
  cases hw with
  | intro c st pl cs h3 hall => exact hall ch (findChild_mem cs cp ch h)

/-- Wf3 is inherited along walks. -/
lemma Wf3_walk {p : List Nat} : ∀ {t n : SForest}, Wf3 t → walk t p = some n → Wf3 n := by
  induction p with
  | nil =>
    intro t n hw h
    simp only [walk] at h
    cases h
    exact hw
  | cons c rest ih =>
    intro t n hw h
    simp only [walk] at h
    cases hb : t.getBranch c with
    | none => rw [hb] at h; cases h
    | some ch =>
      rw [hb] at h
      exact ih (Wf3_getBranch hw hb) h

/-- Walking from a WORD_END node of a well-formed trie fails on every
nonempty word. -/
lemma walk_of_status3 {n : SForest} (hw : Wf3 n) (h3 : n.status = 3)
    (c : Nat) (rest : List Nat) : walk n (c :: rest) = none := by
  cases hw with
  | intro c0 st pl cs hleaf hall =>
    simp only [SForest.status] at h3
    subst h3
    have hcs := hleaf rfl
    subst hcs
    simp [walk, SForest.getBranch, SForest.children, findChild]

/-- Length of a clipped sub-sequence. -/
lemma subList_length (l : List Nat) (a k : Nat) :
    (subList l a k).length = min k (l.length - a) := by
  simp [subList]

/-- Extending a clipped sub-sequence by one in-range codepoint. -/
lemma subList_succ (l : List Nat) (a k : Nat) (h : a + k < l.length) :
    subList l a (k + 1) = subList l a k ++ [l.getD (a + k) 0] := by
  unfold subList
  rw [List.take_succ]
  congr 1
  rw [List.getElem?_drop]
  have hx : l[a + k]? = some (l.getD (a + k) 0) := by
    rw [List.getElem?_eq_getElem h, List.getD_eq_getD_get?, List.get?_eq_getElem?,
      List.getElem?_eq_getElem h]
    rfl
  rw [hx]
  rfl

/-- A phrase occurring at offset r is no longer than the rest of the
input. -/
lemma matchesAt_length_le {f : SForest} {chars : List Nat} {r : Nat} {p : List Nat}
    (h : matchesAt f chars r p) : p.length ≤ chars.length - r := by
  rcases h with ⟨_, hp, _⟩
  have := congrArg List.length hp
  rw [subList_length] at this
  omega

/-- Truncating a phrase that occurs at offset r gives the clipped
sub-sequence of the shorter length. -/
lemma matchesAt_take {f : SForest} {chars : List Nat} {r : Nat} {p : List Nat}
    (h : matchesAt f chars r p) (m : Nat) (hm : m ≤ p.length) :
    p.take m = subList chars r m := by
  rcases h with ⟨_, hp, _⟩
  conv_lhs => rw [hp]
  unfold subList
  rw [List.take_take]
  congr 1
  omega

/-- The scanner invariant holds in the constructor state. -/
lemma ScanInv_init (f : SForest) (cs : List Nat) : ScanInv (initState f cs) := by
  refine ⟨Nat.le_refl _, Nat.zero_le _, ?_, ?_⟩
  · simp [initState, subList, walk]
  · simp only [initState, if_neg Bool.false_ne_true]
    intro d h1 h2
    omega


/-- The boolean leaf check certifies Wf3. -/
lemma wf3_of_b (t : SForest) (h : wf3b t = true) : Wf3 t := by
  cases t with
  | mk c st pl cs =>
    rw [wf3b, Bool.and_eq_true] at h
    rcases h with ⟨h1, h2⟩
    constructor
    · intro h3
      subst h3
      simpa using h1
    · intro ch hch
      apply wf3_of_b ch
      rw [List.all_eq_true] at h2
      exact h2 ⟨ch, hch⟩ (List.mem_attach _ _)
decreasing_by
  subst_vars
  have := List.sizeOf_lt_of_mem hch
  simp only [SForest.mk.sizeOf_spec]
  omega

/-- The fuel-bounded leaf check also certifies Wf3. -/
lemma wf3_of_bF : ∀ (d : Nat) (t : SForest), wf3bF d t = true → Wf3 t := by
  intro d
  induction d with
  | zero => intro t h; simp [wf3bF] at h
  | succ d ih =>
    intro t h
    cases t with
    | mk c st pl cs =>
      rw [wf3bF, Bool.and_eq_true] at h
      rcases h with ⟨h1, h2⟩
      constructor
      · intro h3
        subst h3
        simpa using h1
      · intro ch hch
        rw [List.all_eq_true] at h2
        exact ih ch (h2 ch hch)

/-- The restart step decreases the scan measure. -/
lemma scanMeasure_restart (s : GWState) (h : s.root < s.chars.length) :
    scanMeasure { s with branch := s.forest, i := s.root + 1, root := s.root + 1 } < scanMeasure s := by
  dsimp only [scanMeasure]
  have hA : s.chars.length + 1 - s.root = (s.chars.length - s.root) + 1 := by omega
  rw [hA, Nat.succ_mul]
  have hB : s.chars.length + 1 - (s.root + 1) = s.chars.length - s.root := by omega
  rw [hB]
  omega

/-- Cursor steps decrease the scan measure. -/
lemma scanMeasure_cursor (s s2 : GWState) (hc : s2.chars = s.chars) (hr : s2.root = s.root)
    (hi : s2.i = s.i + 1) (h : s.i < s.chars.length + 1) :
    scanMeasure s2 < scanMeasure s := by
  dsimp only [scanMeasure]
  rw [hc, hr, hi]
  have hA : s.chars.length + 1 - s.i = (s.chars.length + 1 - (s.i + 1)) + 1 := by omega
  omega

/-- The frontWords fuel bound always yields a result: every loop
iteration decreases the scan measure, which the chosen fuel dominates. -/
lemma frontWordsF_isSome : ∀ (k : Nat) (s : GWState), scanMeasure s < k →
    (frontWordsF k s).isSome = true := by
  intro k
  induction k with
  | zero => intro s h; omega
  | succ k ih =>
    intro s h
    rw [frontWordsF]
    by_cases hiL : s.i < s.chars.length + 1
    · rw [if_pos hiL]
      cases hlook : (if s.i = s.chars.length then none
          else s.branch.getBranch (s.chars.getD s.i 0)) with
      | none =>
        simp only []
        by_cases hb : s.isBack
        · rw [if_pos hb]
          split <;> rfl
        · rw [if_neg hb]
          by_cases hend : s.root + 1 ≥ s.chars.length
          · rw [if_pos hend]
            rfl
          · rw [if_neg hend]
            apply ih
            have hstep := scanMeasure_restart s (by omega)
            omega
      | some node =>
        simp only []
        by_cases h2 : node.status = 2
        · rw [if_pos h2]
          apply ih
          have hstep := scanMeasure_cursor s { s with branch := node, isBack := true, tempOffe := s.i - s.root + 1, param := node.param, i := s.i + 1 } rfl rfl rfl hiL
          omega
        · rw [if_neg h2]
          by_cases h3 : node.status = 3
          · rw [if_pos h3]
            split <;> rfl
          · rw [if_neg h3]
            apply ih
            have hstep := scanMeasure_cursor s { s with branch := node, i := s.i + 1 } rfl rfl rfl hiL
            omega
    · rw [if_neg hiL]
      rfl

/-- The wrapper fuel dominates the scan measure. -/
lemma scanMeasure_lt_frontFuel (s : GWState) : scanMeasure s < frontFuel s := by
  unfold scanMeasure frontFuel
  have h1 : (s.chars.length + 1 - s.root) * (s.chars.length + 2) ≤
      (s.chars.length + 1) * (s.chars.length + 2) :=
    Nat.mul_le_mul_right _ (by omega)
  have h2 : (s.chars.length + 1) * (s.chars.length + 2) + (s.chars.length + 2) =
      (s.chars.length + 2) * (s.chars.length + 2) := by ring
  have h3 : (s.chars.length + 2) * (s.chars.length + 2) + (s.chars.length + 2) =
      (s.chars.length + 2) * (s.chars.length + 3) := by ring
  omega

/-- frontWords agrees with the fueled loop at the wrapper fuel. -/
lemma frontWords_eq_frontWordsF (s : GWState) :
    frontWordsF (frontFuel s) s = some (frontWords s) := by
  have h := frontWordsF_isSome (frontFuel s) s (scanMeasure_lt_frontFuel s)
  cases hx : frontWordsF (frontFuel s) s with
  | none => rw [hx] at h; cases h
  | some r => simp [frontWords, hx]

/-- Walking a single codepoint is a child lookup. -/
lemma walk_single (t : SForest) (c : Nat) : walk t [c] = t.getBranch c := by
  simp only [walk]
  cases t.getBranch c <;> simp [walk]

/-- Main invariant lemma for the frontWords loop: from a state satisfying
the scanner invariant over a well-formed trie, the loop preserves the
input and trie, never moves the root backwards, stays within one rune
past the end, and either reports no more matches with the root at or
past the end of input, or returns the longest dictionary phrase at the
match offset, strictly advancing the root and re-establishing the
invariant in a fresh-scan state. -/
lemma frontWordsF_spec : ∀ (fuel : Nat) (s : GWState) (w : List Nat) (s2 : GWState),
    ScanInv s → Wf3 s.forest → frontWordsF fuel s = some (w, s2) →
    s2.chars = s.chars ∧ s2.forest = s.forest ∧ s.root ≤ s2.root ∧
    s2.root ≤ s.chars.length + 1 ∧
    ((w = nullResult ∧ s.chars.length ≤ s2.root) ∨
     (s.root < s2.root ∧ s2.root ≤ s.chars.length ∧ s2.i = s2.root ∧
      s2.branch = s2.forest ∧ s2.isBack = false ∧ ScanInv s2 ∧
      LongestMatchAt s.forest s.chars s2.offe w)) := by
  intro fuel
  induction fuel with
  | zero =>
    intro s w s2 _ _ h
    exact absurd h (by simp [frontWordsF])
  | succ fuel ih =>
    intro s w s2 hinv hwf h
    obtain ⟨hri, hiLen, hwalk, hifb⟩ := hinv
    rw [frontWordsF] at h
    by_cases hiL : s.i < s.chars.length + 1
    · rw [if_pos hiL] at h
      cases hlook : (if s.i = s.chars.length then none
          else s.branch.getBranch (s.chars.getD s.i 0)) with
      | none =>
        rw [hlook] at h
        simp only [] at h
        by_cases hb : s.isBack
        · rw [if_pos hb] at h
          rw [if_pos hb] at hifb
          obtain ⟨ht1, ht2, hcomp, hmax⟩ := hifb
          have hlenstr : (subList s.chars s.root s.tempOffe).length = s.tempOffe := by
            rw [subList_length]
            omega
          rw [if_neg (by omega)] at h
          simp only [Option.some.injEq, Prod.mk.injEq] at h
          obtain ⟨hw, hs2⟩ := h
          subst hs2
          refine ⟨rfl, rfl, by dsimp only; omega, by dsimp only; omega, Or.inr ?_⟩
          refine ⟨by dsimp only; omega, by dsimp only; omega, rfl, rfl, rfl, ?_, ?_⟩
          · refine ⟨by dsimp only; omega, by dsimp only; omega, ?_, ?_⟩
            · dsimp only
              simp [subList, walk]
            · dsimp only
              rw [if_neg Bool.false_ne_true]
              intro d hd1 hd2
              omega
          · dsimp only
            subst hw
            refine ⟨?_, ?_, hcomp, ?_⟩
            · intro hc
              rw [hc] at hlenstr
              simp at hlenstr
              omega
            · rw [hlenstr]
            · intro p hp
              by_contra hgt
              push_neg at hgt
              rw [hlenstr] at hgt
              have hple := matchesAt_length_le hp
              by_cases hcase : p.length ≤ s.i - s.root
              · rcases hp with ⟨hp1, hp2, hp3⟩
                exact hmax p.length hgt hcase (hp2 ▸ hp3)
              · by_cases hieq : s.i = s.chars.length
                · omega
                · have hiLt : s.i < s.chars.length := by omega
                  rw [if_neg hieq] at hlook
                  have hm : s.i - s.root + 1 ≤ p.length := by omega
                  have htake := matchesAt_take hp (s.i - s.root + 1) hm
                  have hidx : s.root + (s.i - s.root) = s.i := by omega
                  have hseg := subList_succ s.chars s.root (s.i - s.root)
                    (by omega)
                  rw [hidx] at hseg
                  have hwp : walk s.forest (p.take (s.i - s.root + 1)) = none := by
                    rw [htake, hseg, walk_append, hwalk]
                    simp only [Option.some_bind]
                    rw [walk_single, hlook]
                  have : walk s.forest p = none := by
                    rw [← List.take_append_drop (s.i - s.root + 1) p]
                    exact walk_none_of_prefix hwp _
                  rcases hp with ⟨hp1, hp2, hp3⟩
                  rcases hp3 with ⟨n, hn, _⟩
                  rw [this] at hn
                  cases hn
        · rw [if_neg hb] at h
          rw [if_neg hb] at hifb
          by_cases hend : s.root + 1 ≥ s.chars.length
          · rw [if_pos hend] at h
            simp only [Option.some.injEq, Prod.mk.injEq] at h
            obtain ⟨hw, hs2⟩ := h
            subst hs2
            exact ⟨rfl, rfl, by dsimp only; omega, by dsimp only; omega,
              Or.inl ⟨hw.symm, by dsimp only; omega⟩⟩
          · rw [if_neg hend] at h
            have hinvN : ScanInv { s with branch := s.forest, i := s.root + 1, root := s.root + 1 } := by
              refine ⟨Nat.le_refl _, by dsimp only; omega, ?_, ?_⟩
              · dsimp only
                simp [subList, walk]
              · dsimp only
                rw [if_neg hb]
                intro d hd1 hd2
                omega
            have hres := ih _ w s2 hinvN hwf h
            obtain ⟨hc1, hc2, hc3, hc4, hc5⟩ := hres
            refine ⟨hc1, hc2, by dsimp only at hc3; omega, by dsimp only at hc4; omega, ?_⟩
            rcases hc5 with ⟨hn1, hn2⟩ | ⟨hm1, hm2, hm3, hm4, hm5, hm6, hm7⟩
            · exact Or.inl ⟨hn1, hn2⟩
            · exact Or.inr ⟨by dsimp only at hm1; omega, hm2, hm3, hm4, hm5, hm6, hm7⟩
      | some node =>
        rw [hlook] at h
        simp only [] at h
        have hieq : ¬ (s.i = s.chars.length) := by
          intro hc
          rw [if_pos hc] at hlook
          cases hlook
        rw [if_neg hieq] at hlook
        have hiLt : s.i < s.chars.length := by omega
        have hidx : s.root + (s.i - s.root) = s.i := by omega
        have hseg := subList_succ s.chars s.root (s.i - s.root) (by omega)
        rw [hidx] at hseg
        have harith : s.i - s.root + 1 = s.i + 1 - s.root := by omega
        have hwalkExt : walk s.forest (subList s.chars s.root (s.i - s.root + 1)) =
            some node := by
          rw [hseg, walk_append, hwalk]
          simp only [Option.some_bind]
          rw [walk_single, hlook]
        by_cases h2 : node.status = 2
        · rw [if_pos h2] at h
          have hinvB : ScanInv { s with branch := node, isBack := true, tempOffe := s.i - s.root + 1, param := node.param, i := s.i + 1 } := by
            refine ⟨by dsimp only; omega, by dsimp only; omega, ?_, ?_⟩
            · dsimp only
              rw [← harith]
              exact hwalkExt
            · dsimp only
              rw [if_pos rfl]
              refine ⟨by omega, by omega, ⟨node, hwalkExt, Or.inl h2⟩, ?_⟩
              intro d hd1 hd2
              omega
          have hres := ih _ w s2 hinvB hwf h
          obtain ⟨hc1, hc2, hc3, hc4, hc5⟩ := hres
          refine ⟨hc1, hc2, by dsimp only at hc3; omega, by dsimp only at hc4; omega, ?_⟩
          rcases hc5 with ⟨hn1, hn2⟩ | ⟨hm1, hm2, hm3, hm4, hm5, hm6, hm7⟩
          · exact Or.inl ⟨hn1, hn2⟩
          · exact Or.inr ⟨by dsimp only at hm1; omega, hm2, hm3, hm4, hm5, hm6, hm7⟩
        · rw [if_neg h2] at h
          by_cases h3 : node.status = 3
          · rw [if_pos h3] at h
            have hlenstr : (subList s.chars s.root (s.i - s.root + 1)).length =
                s.i - s.root + 1 := by
              rw [subList_length]
              omega
            rw [if_pos (by omega)] at h
            simp only [Option.some.injEq, Prod.mk.injEq] at h
            obtain ⟨hw, hs2⟩ := h
            subst hs2
            refine ⟨rfl, rfl, by dsimp only; omega, by dsimp only; omega, Or.inr ?_⟩
            refine ⟨by dsimp only; omega, by dsimp only; omega, rfl, rfl, rfl, ?_, ?_⟩
            · refine ⟨Nat.le_refl _, by dsimp only; omega, ?_, ?_⟩
              · dsimp only
                simp [subList, walk]
              · dsimp only
                rw [if_neg Bool.false_ne_true]
                intro d hd1 hd2
                omega
            · dsimp only
              subst hw
              refine ⟨?_, ?_, ⟨node, hwalkExt, Or.inr h3⟩, ?_⟩
              · intro hc
                rw [hc] at hlenstr
                simp at hlenstr
              · rw [hlenstr]
              · intro p hp
                by_contra hgt
                push_neg at hgt
                rw [hlenstr] at hgt
                have hm : s.i - s.root + 1 ≤ p.length := by omega
                have htake := matchesAt_take hp (s.i - s.root + 1) hm
                have hwf3n : Wf3 node := Wf3_walk hwf hwalkExt
                rcases hdrop : p.drop (s.i - s.root + 1) with _ | ⟨c2, r2⟩
                · have := List.drop_eq_nil_iff.mp hdrop
                  omega
                · have hwp : walk s.forest p = none := by
                    rw [← List.take_append_drop (s.i - s.root + 1) p, walk_append,
                      htake, hwalkExt]
                    simp only [Option.some_bind]
                    rw [hdrop]
                    exact walk_of_status3 hwf3n h3 c2 r2
                  rcases hp with ⟨hp1, hp2, hp3⟩
                  rcases hp3 with ⟨n, hn, _⟩
                  rw [hwp] at hn
                  cases hn
          · rw [if_neg h3] at h
            have hinvC : ScanInv { s with branch := node, i := s.i + 1 } := by
              refine ⟨by dsimp only; omega, by dsimp only; omega, ?_, ?_⟩
              · dsimp only
                rw [← harith]
                exact hwalkExt
              · dsimp only
                by_cases hb : s.isBack
                · rw [if_pos hb] at hifb ⊢
                  obtain ⟨ht1, ht2, hcomp, hmax⟩ := hifb
                  refine ⟨ht1, by omega, hcomp, ?_⟩
                  intro d hd1 hd2
                  by_cases hdle : d ≤ s.i - s.root
                  · exact hmax d hd1 hdle
                  · have hdeq : d = s.i - s.root + 1 := by omega
                    subst hdeq
                    rintro ⟨n, hn, hst⟩
                    rw [hwalkExt] at hn
                    cases hn
                    rcases hst with hst | hst
                    · exact h2 hst
                    · exact h3 hst
                · rw [if_neg hb] at hifb ⊢
                  intro d hd1 hd2
                  by_cases hdle : d ≤ s.i - s.root
                  · exact hifb d hd1 hdle
                  · have hdeq : d = s.i - s.root + 1 := by omega
                    subst hdeq
                    rintro ⟨n, hn, hst⟩
                    rw [hwalkExt] at hn
                    cases hn
                    rcases hst with hst | hst
                    · exact h2 hst
                    · exact h3 hst
            have hres := ih _ w s2 hinvC hwf h
            obtain ⟨hc1, hc2, hc3, hc4, hc5⟩ := hres
            refine ⟨hc1, hc2, by dsimp only at hc3; omega, by dsimp only at hc4; omega, ?_⟩
            rcases hc5 with ⟨hn1, hn2⟩ | ⟨hm1, hm2, hm3, hm4, hm5, hm6, hm7⟩
            · exact Or.inl ⟨hn1, hn2⟩
            · exact Or.inr ⟨by dsimp only at hm1; omega, hm2, hm3, hm4, hm5, hm6, hm7⟩
    · omega

/-- The boundary check either rejects (empty string) or passes the word
through unchanged. -/
lemma checkNumberOrEnglish_eq_or (chars : List Nat) (offe : Nat) (t : List Nat) :
    checkNumberOrEnglish chars offe t = [] ∨ checkNumberOrEnglish chars offe t = t := by
  cases t with
  | nil => exact Or.inl rfl
  | cons l rest =>
    simp only [checkNumberOrEnglish]
    split_ifs <;> simp

/-- A same-class pair has an ASCII left component. -/
lemma checkSame_left_lt (x y : Nat) (h : checkSame x y = true) : x < 127 := by
  simp only [checkSame, isE, isNum, Bool.or_eq_true, Bool.and_eq_true,
    decide_eq_true_eq] at h
  rcases h with ⟨h1, _⟩ | ⟨h1, _⟩ <;> omega

/-- Emitted words pass the boundary check: the getFrontWords loop keeps
scanning while the check rejects. -/
lemma getFrontWordsAux_check : ∀ (n : Nat) (s : GWState) (w : List Nat) (s2 : GWState),
    getFrontWordsAux n s = (w, s2) → w ≠ nullResult →
    w ≠ [] ∧ checkNumberOrEnglish s2.chars s2.offe w = w := by
  intro n
  induction n with
  | zero =>
    intro s w s2 h hnn
    simp only [getFrontWordsAux] at h
    cases h
    exact absurd rfl hnn
  | succ n ih =>
    intro s w s2 h hnn
    rw [getFrontWordsAux] at h
    rcases hfw : frontWords s with ⟨t, s1⟩
    rw [hfw] at h
    simp only [] at h
    by_cases ht : t = nullResult
    · rw [if_pos ht] at h
      cases h
      exact absurd rfl hnn
    · rw [if_neg ht] at h
      by_cases ht2 : checkNumberOrEnglish s1.chars s1.offe t = []
      · rw [if_pos ht2] at h
        exact ih s1 w s2 h hnn
      · rw [if_neg ht2] at h
        rcases checkNumberOrEnglish_eq_or s1.chars s1.offe t with hc | hc
        · exact absurd hc ht2
        · cases h
          exact ⟨by rw [hc]; exact fun he => ht2 (by rw [he] at hc ⊢; exact hc),
            by rw [hc, hc]⟩

/-- The frontWords wrapper satisfies the loop specification. -/
lemma frontWords_spec (s : GWState) (w : List Nat) (s2 : GWState)
    (hinv : ScanInv s) (hwf : Wf3 s.forest) (h : frontWords s = (w, s2)) :
    s2.chars = s.chars ∧ s2.forest = s.forest ∧ s.root ≤ s2.root ∧
    s2.root ≤ s.chars.length + 1 ∧
    ((w = nullResult ∧ s.chars.length ≤ s2.root) ∨
     (s.root < s2.root ∧ s2.root ≤ s.chars.length ∧ s2.i = s2.root ∧
      s2.branch = s2.forest ∧ s2.isBack = false ∧ ScanInv s2 ∧
      LongestMatchAt s.forest s.chars s2.offe w)) := by
  have hfe := frontWords_eq_frontWordsF s
  rw [h] at hfe
  exact frontWordsF_spec (frontFuel s) s w s2 hinv hwf hfe

/-- Every word the getFrontWords loop emits is the longest dictionary
phrase at its match offset. -/
lemma getFrontWordsAux_spec : ∀ (n : Nat) (s : GWState) (w : List Nat) (s2 : GWState),
    ScanInv s → Wf3 s.forest → getFrontWordsAux n s = (w, s2) →
    s2.chars = s.chars ∧ s2.forest = s.forest ∧
    (w = nullResult ∨ LongestMatchAt s.forest s.chars s2.offe w) := by
  intro n
  induction n with
  | zero =>
    intro s w s2 _ _ h
    simp only [getFrontWordsAux] at h
    cases h
    exact ⟨rfl, rfl, Or.inl rfl⟩
  | succ n ih =>
    intro s w s2 hinv hwf h
    rw [getFrontWordsAux] at h
    rcases hfw : frontWords s with ⟨t, s1⟩
    rw [hfw] at h
    simp only [] at h
    have hspec := frontWords_spec s t s1 hinv hwf hfw
    obtain ⟨hch, hfo, _, _, hdisj⟩ := hspec
    by_cases ht : t = nullResult
    · rw [if_pos ht] at h
      cases h
      exact ⟨hch, hfo, Or.inl rfl⟩
    · rw [if_neg ht] at h
      have hlong : ScanInv s1 ∧ LongestMatchAt s.forest s.chars s1.offe t := by
        rcases hdisj with ⟨hn, _⟩ | ⟨_, _, _, _, _, hI, hL⟩
        · exact absurd hn ht
        · exact ⟨hI, hL⟩
      by_cases ht2 : checkNumberOrEnglish s1.chars s1.offe t = []
      · rw [if_pos ht2] at h
        have hres := ih s1 w s2 hlong.1 (by rw [hfo]; exact hwf) h
        obtain ⟨hc1, hc2, hc3⟩ := hres
        refine ⟨by rw [hc1, hch], by rw [hc2, hfo], ?_⟩
        rcases hc3 with hc3 | hc3
        · exact Or.inl hc3
        · rw [hfo, hch] at hc3
          exact Or.inr hc3
      · rw [if_neg ht2] at h
        rcases checkNumberOrEnglish_eq_or s1.chars s1.offe t with hc | hc
        · exact absurd hc ht2
        · cases h
          exact ⟨hch, hfo, Or.inr (by rw [hc]; exact hlong.2)⟩

/-- The boundary check rejects a non-sentinel word exactly when the rune
before the match or the rune after the match exists and forms a
same-class pair with the word's first or last codepoint. -/
lemma checkNumberOrEnglish_reject_iff (chars : List Nat) (offe l : Nat) (rest : List Nat)
    (hnn : l :: rest ≠ nullResult) :
    (checkNumberOrEnglish chars offe (l :: rest) = [] ↔
      ((0 < offe ∧ checkSame l (chars.getD (offe - 1) 0) = true) ∨
       (offe + (l :: rest).length < chars.length ∧
        checkSame (rest.getLastD l) (chars.getD (offe + (l :: rest).length) 0) = true))) := by
  simp only [checkNumberOrEnglish]
  rw [if_neg hnn]
  split_ifs with hc1 hc2
  · simp only [true_iff]
    exact Or.inl ⟨hc1.2.1, hc1.2.2⟩
  · simp only [true_iff]
    exact Or.inr ⟨hc2.2.1, hc2.2.2⟩
  · simp only [false_iff]
    rintro (⟨ho, hs⟩ | ⟨ho, hs⟩)
    · exact absurd ⟨checkSame_left_lt _ _ hs, ho, hs⟩ hc1
    · exact absurd ⟨checkSame_left_lt _ _ hs, ho, hs⟩ hc2

/-! ## Claim C4: boundary rejection -/

/-- C4: the boundary rule: a candidate phrase (other than the NULL_RESULT
sentinel) is rejected — replaced by the empty string, which makes the
getFrontWords loop keep scanning — exactly when the rune immediately
before the match start or the rune immediately after the match end exists
in the input and is an ASCII letter/digit of the same class as the
first/last rune of the match; and such a rejected match is never emitted:
every word getFrontWords returns to the caller, other than the sentinel,
is nonempty and passes the boundary check unchanged. -/
theorem boundary_rejection :
    (∀ (chars : List Nat) (offe l : Nat) (rest : List Nat), l :: rest ≠ nullResult →
      (checkNumberOrEnglish chars offe (l :: rest) = [] ↔
        ((0 < offe ∧ checkSame l (chars.getD (offe - 1) 0) = true) ∨
         (offe + (l :: rest).length < chars.length ∧
          checkSame (rest.getLastD l) (chars.getD (offe + (l :: rest).length) 0) = true)))) ∧
    (∀ (s : GWState) (w : List Nat) (s2 : GWState), getFrontWords s = (w, s2) →
      w ≠ nullResult → w ≠ [] ∧ checkNumberOrEnglish s2.chars s2.offe w = w) :=
  ⟨checkNumberOrEnglish_reject_iff,
   fun s w s2 h hnn => getFrontWordsAux_check 1000 s w s2 h hnn⟩

/-- Closed instance of the boundary rule: the single letter a inside "ab"
matched at offset 0 is rejected because of the following b, and the word
emitted by the concrete 中国人 scan passes the check unchanged. -/
theorem boundary_rejection_witness :
    (checkNumberOrEnglish (ascii "ab") 0 [97] = [] ↔
      ((0 < 0 ∧ checkSame 97 ((ascii "ab").getD (0 - 1) 0) = true) ∨
       (0 + ([97] : List Nat).length < (ascii "ab").length ∧
        checkSame (([] : List Nat).getLastD 97)
          ((ascii "ab").getD (0 + ([97] : List Nat).length) 0) = true))) ∧
    ((getFrontWords (initState trieC1 (ascii "中国人"))).1 ≠ [] ∧
     checkNumberOrEnglish (getFrontWords (initState trieC1 (ascii "中国人"))).2.chars
       (getFrontWords (initState trieC1 (ascii "中国人"))).2.offe
       (getFrontWords (initState trieC1 (ascii "中国人"))).1 =
       (getFrontWords (initState trieC1 (ascii "中国人"))).1) :=
  ⟨boundary_rejection.1 (ascii "ab") 0 97 [] (by decide),
   boundary_rejection.2 (initState trieC1 (ascii "中国人")) _ _ rfl (by decide)⟩

/-! ## Claim C1: longest-match resolution -/

/-- C1: longest-match resolution: with the phrases 中, 中国, 中国人 in the
trie, running getFrontWords to exhaustion on 中国人 yields exactly one
match — the full phrase 中国人, after which the scan reports NULL_RESULT —
and in general every non-sentinel word a getFrontWords call returns is the
longest dictionary phrase beginning at its match offset. -/
theorem longest_match :
    ((getFrontWords (initState trieC1 (ascii "中国人"))).1 = ascii "中国人" ∧
     (getFrontWords ((getFrontWords (initState trieC1 (ascii "中国人"))).2)).1 =
       nullResult) ∧
    (∀ (s : GWState) (w : List Nat) (s2 : GWState), ScanInv s → Wf3 s.forest →
      getFrontWords s = (w, s2) →
      w = nullResult ∨ LongestMatchAt s.forest s.chars s2.offe w) := by
  constructor
  · exact ⟨by decide, by decide⟩
  · intro s w s2 hinv hwf h
    exact (getFrontWordsAux_spec 1000 s w s2 hinv hwf h).2.2

/-- Closed instance of the general longest-match statement at the concrete
中国人 scan. -/
theorem longest_match_witness :
    (getFrontWords (initState trieC1 (ascii "中国人"))).1 = nullResult ∨
    LongestMatchAt (initState trieC1 (ascii "中国人")).forest
      (initState trieC1 (ascii "中国人")).chars
      (getFrontWords (initState trieC1 (ascii "中国人"))).2.offe
      (getFrontWords (initState trieC1 (ascii "中国人"))).1 :=
  longest_match.2 (initState trieC1 (ascii "中国人")) _ _
    (ScanInv_init trieC1 (ascii "中国人")) (wf3_of_bF 5 trieC1 (by decide)) rfl

/-! ## Claim C5: termination, progress and the iteration cap -/

lemma strC5_length : strC5.length = 1003 := by
  rw [strC5, List.length_append, List.length_replicate]
  rfl

lemma strC5_getD_lt (k : Nat) (h : k < 1002) : strC5.getD k 0 = 49 := by
  rw [List.getD_eq_getElem?_getD, strC5]
  rw [List.getElem?_append_left (by rw [List.length_replicate]; exact h)]
  rw [List.getElem?_replicate, if_pos h]
  rfl

lemma strC5_getD_top : strC5.getD 1002 0 = 20013 := by
  rw [List.getD_eq_getElem?_getD, strC5]
  rw [List.getElem?_append_right (by rw [List.length_replicate])]
  rw [List.length_replicate]
  rfl

lemma strC5_drop (k : Nat) (h : k ≤ 1002) :
    strC5.drop k = List.replicate (1002 - k) 49 ++ [20013] := by
  rw [strC5, List.drop_append_of_le_length (by rw [List.length_replicate]; exact h),
    List.drop_replicate]

lemma strC5_sub_one (k : Nat) (h : k < 1002) : subList strC5 k 1 = [49] := by
  rw [subList, strC5_drop k (Nat.le_of_lt h)]
  have h2 : 1002 - k = (1001 - k) + 1 := by omega
  rw [h2, List.replicate_succ]
  rfl

lemma strC5_sub_top : subList strC5 1002 1 = [20013] := by
  rw [subList, strC5_drop 1002 (Nat.le_refl _)]
  rfl

lemma trieC5_branch_digit :
    trieC5.getBranch 49 = some (SForest.mk 49 3 [ascii "yi1"] []) := rfl

lemma trieC5_branch_han :
    trieC5.getBranch 20013 = some (SForest.mk 20013 3 [ascii "zhong1"] []) := rfl

/-- To compute frontWords symbolically it suffices to evaluate the fueled
loop at an arbitrary positive fuel. -/
lemma frontWords_of_forall (s : GWState) (r : List Nat × GWState)
    (h : ∀ fuel, frontWordsF (fuel + 1) s = some r) : frontWords s = r := by
  have hpos : 0 < frontFuel s := by
    unfold frontFuel
    exact Nat.mul_pos (by omega) (by omega)
  have h2 := frontWords_eq_frontWordsF s
  have h3 : frontFuel s = (frontFuel s - 1) + 1 := by omega
  rw [h3, h (frontFuel s - 1)] at h2
  exact (Option.some.inj h2).symm

/-- One frontWords call from a fresh state inside the run of 1s: the digit
is a one-rune phrase, so the scanner returns it and moves both cursors one
rune forward. -/
lemma c5_front_step (k o : Nat) (pm : List (List Nat)) (h : k < 1002) :
    frontWords (c5state k o pm) = ([49], c5state (k + 1) k [ascii "yi1"]) := by
  apply frontWords_of_forall
  intro fuel
  rw [frontWordsF]
  simp only [c5state]
  rw [strC5_length]
  rw [if_pos (show k < 1003 + 1 by omega)]
  rw [if_neg (show ¬ k = 1003 by omega)]
  rw [strC5_getD_lt k h, trieC5_branch_digit]
  simp only [Nat.sub_self, Nat.zero_add]
  simp only [SForest.status, SForest.param]
  rw [if_pos trivial]
  rw [strC5_sub_one k h]
  rw [if_pos (show ([49] : List Nat).length > 0 by decide)]
  rw [if_neg (show ¬ (3 : Nat) = 2 by omega)]

/-- The frontWords call at the 中 rune: the scanner returns 中. -/
lemma c5_front_top (o : Nat) (pm : List (List Nat)) :
    frontWords (c5state 1002 o pm) = ([20013], c5state 1003 1002 [ascii "zhong1"]) := by
  apply frontWords_of_forall
  intro fuel
  rw [frontWordsF]
  simp only [c5state]
  rw [strC5_length]
  rw [if_pos (show (1002 : Nat) < 1003 + 1 by omega)]
  rw [if_neg (show ¬ (1002 : Nat) = 1003 by omega)]
  rw [strC5_getD_top, trieC5_branch_han]
  simp only [Nat.sub_self, Nat.zero_add]
  simp only [SForest.status, SForest.param]
  rw [if_pos trivial]
  rw [strC5_sub_top]
  rw [if_pos (show ([20013] : List Nat).length > 0 by decide)]
  rw [if_neg (show ¬ (3 : Nat) = 2 by omega)]

/-- Inside the run of 1s the boundary check always rejects the single-digit
match: the digit on at least one side of the match is in the same class. -/
lemma c5_check_reject (k : Nat) (h : k ≤ 1001) :
    checkNumberOrEnglish strC5 k [49] = [] := by
  simp only [checkNumberOrEnglish]
  rw [if_neg (show ¬ ([49] : List Nat) = nullResult by decide)]
  by_cases hk : k = 0
  · subst hk
    rw [if_neg (fun hc => absurd hc.2.1 (by omega))]
    rw [if_pos ⟨by decide, by rw [strC5_length]; decide,
      by show checkSame 49 (strC5.getD 1 0) = true
         rw [strC5_getD_lt 1 (by omega)]
         decide⟩]
  · rw [if_pos ⟨by omega, by omega,
      by rw [strC5_getD_lt (k - 1) (by omega)]; decide⟩]

/-- Running the capped loop from anywhere in the run of 1s with enough of
the run left exhausts the iteration budget and reports NULL_RESULT. -/
lemma c5_null_run : ∀ (m k o : Nat) (pm : List (List Nat)), k + m ≤ 1002 →
    (getFrontWordsAux m (c5state k o pm)).1 = nullResult := by
  intro m
  induction m with
  | zero => intro k o pm _; rfl
  | succ m ih =>
    intro k o pm h
    rw [getFrontWordsAux, c5_front_step k o pm (by omega)]
    simp only []
    rw [if_neg (show ¬ ([49] : List Nat) = nullResult by decide)]
    have hc : checkNumberOrEnglish (c5state (k + 1) k [ascii "yi1"]).chars
        (c5state (k + 1) k [ascii "yi1"]).offe [49] = [] := by
      dsimp only [c5state]
      exact c5_check_reject k (by omega)
    rw [hc]
    rw [if_pos rfl]
    exact ih (k + 1) k [ascii "yi1"] (by omega)

/-- The full capped run on strC5 returns the NULL_RESULT sentinel. -/
lemma c5_capped_null : (getFrontWords (initState trieC5 strC5)).1 = nullResult := by
  have h : initState trieC5 strC5 = c5state 0 0 [] := rfl
  rw [getFrontWords, h]
  exact c5_null_run 1000 0 0 [] (by omega)

/-- From the 中 rune a single fresh call returns the 中 match. -/
lemma c5_fresh_match (o : Nat) (pm : List (List Nat)) :
    (getFrontWords (c5state 1002 o pm)).1 = [20013] := by
  rw [getFrontWords]
  rw [show (1000 : Nat) = 999 + 1 from rfl]
  rw [getFrontWordsAux, c5_front_top o pm]
  simp only []
  rw [if_neg (show ¬ ([20013] : List Nat) = nullResult by decide)]
  have hc : checkNumberOrEnglish (c5state 1003 1002 [ascii "zhong1"]).chars
      (c5state 1003 1002 [ascii "zhong1"]).offe [20013] = [20013] := by
    dsimp only [c5state]
    simp only [checkNumberOrEnglish]
    rw [if_neg (show ¬ ([20013] : List Nat) = nullResult by decide)]
    rw [if_neg (fun hc => absurd hc.1 (by omega))]
    rw [if_neg (fun hc => absurd hc.1 (by decide))]
  rw [hc]
  rw [if_neg (show ¬ ([20013] : List Nat) = [] by decide)]

/-- 中 is a valid dictionary match of trieC5 at offset 1002 of strC5. -/
lemma c5_match_exists : matchesAt trieC5 strC5 1002 [20013] := by
  refine ⟨by decide, ?_, ?_⟩
  · rw [show ([20013] : List Nat).length = 1 from rfl, strC5_sub_top]
  · exact ⟨SForest.mk 20013 3 [ascii "zhong1"] [],
      by rw [walk_single]; exact trieC5_branch_han, Or.inr rfl⟩

/-- C5 (amended): the scan itself always terminates (the fueled loop, given
the quadratic fuel bound, always produces an answer), and every frontWords
call from an invariant state over a well-formed trie makes progress: the
scan root never moves backwards, stays within one rune past the end of
input, and either strictly increases or the call reports "no more matches"
with the root at or past the end of input.  The original claim's final
conjunct is false: getFrontWords additionally imposes a fixed cap of 1000
boundary-rejection iterations that is unrelated to the input length, and
the cap can drop a valid match (see the counterexample). -/
theorem matcher_termination_progress :
    (∀ s : GWState, (frontWordsF (frontFuel s) s).isSome = true) ∧
    (∀ (s : GWState) (w : List Nat) (s2 : GWState), ScanInv s → Wf3 s.forest →
      frontWords s = (w, s2) →
      s.root ≤ s2.root ∧ s2.root ≤ s.chars.length + 1 ∧
      (s.root < s2.root ∨ (w = nullResult ∧ s.chars.length ≤ s2.root))) := by
  constructor
  · intro s
    exact frontWordsF_isSome (frontFuel s) s (scanMeasure_lt_frontFuel s)
  · intro s w s2 hinv hwf h
    obtain ⟨_, _, h1, h2, hd⟩ := frontWords_spec s w s2 hinv hwf h
    refine ⟨h1, h2, ?_⟩
    rcases hd with ⟨hn, hr⟩ | ⟨hlt, _⟩
    · exact Or.inr ⟨hn, hr⟩
    · exact Or.inl hlt

/-- Closed instance of termination and progress at the concrete 中国人
scan. -/
theorem matcher_termination_progress_witness :
    ((frontWordsF (frontFuel (initState trieC1 (ascii "中国人")))
        (initState trieC1 (ascii "中国人"))).isSome = true) ∧
    ((initState trieC1 (ascii "中国人")).root ≤
        (frontWords (initState trieC1 (ascii "中国人"))).2.root ∧
     (frontWords (initState trieC1 (ascii "中国人"))).2.root ≤
        (initState trieC1 (ascii "中国人")).chars.length + 1 ∧
     ((initState trieC1 (ascii "中国人")).root <
        (frontWords (initState trieC1 (ascii "中国人"))).2.root ∨
      ((frontWords (initState trieC1 (ascii "中国人"))).1 = nullResult ∧
       (initState trieC1 (ascii "中国人")).chars.length ≤
        (frontWords (initState trieC1 (ascii "中国人"))).2.root))) :=
  ⟨matcher_termination_progress.1 (initState trieC1 (ascii "中国人")),
   matcher_termination_progress.2 (initState trieC1 (ascii "中国人")) _ _
     (ScanInv_init trieC1 (ascii "中国人")) (wf3_of_bF 5 trieC1 (by decide)) rfl⟩

/-- Counterexample to the original C5 claim's "no valid match is dropped
because of an iteration cap unrelated to input length": on the 1003-rune
input of 1002 digits 1 followed by 中, with the one-rune phrases 1 and 中
in the trie, getFrontWords exhausts its fixed 1000-iteration budget on
boundary-rejected digit matches and returns the NULL_RESULT sentinel, even
though 中 is a valid dictionary match at offset 1002 — which a fresh call
started at that offset does return. -/
theorem matcher_iteration_cap_counterexample :
    (getFrontWords (initState trieC5 strC5)).1 = nullResult ∧
    matchesAt trieC5 strC5 1002 [20013] ∧
    (getFrontWords (c5state 1002 0 [])).1 = [20013] :=
  ⟨c5_capped_null, c5_match_exists, c5_fresh_match 0 []⟩
